import Mathlib

/-!
A shallow embedding of the zinops tensor rearrangement library
(`zinops.py`): pattern tokenizing, axis classification, shape
validation, plan construction and execution against a model of the
numpy backend primitives (`reshape`, `transpose`, `broadcast_to`),
together with theorems settling the specification claims.
-/

namespace Zinops

/-- Error kinds, one per `raise` site of the source plus the Python
built-in exceptions that can escape (`ValueError` from tuple unpacking,
`IndexError`, `KeyError`, `ZeroDivisionError`) and one per numpy
backend failure. -/
inductive ZErr where
  | noSeparator
  | valueError
  | mustSpecifySplit
  | cannotSplit
  | onlyOneUnknown
  | transposeRankMismatch
  | tooManyAxes
  | splitRankMismatch
  | mergeUnknown
  | unknownAxis
  | indexError
  | keyError
  | zeroDivisionError
  | npReshapeError
  | npTransposeError
  | npBroadcastError
  deriving DecidableEq, Repr

/-- A numpy array: a shape together with the row-major flat data. -/
structure Tensor where
  shape : List Nat
  data : List Int
  deriving DecidableEq, Repr

/-- Trim leading and trailing whitespace (Python `str.strip()`),
working on the character list so the kernel can evaluate it. -/
def trimChars (l : List Char) : List Char :=
  ((l.dropWhile Char.isWhitespace).reverse.dropWhile Char.isWhitespace).reverse

/-- One step of the custom tokenizing split in `parser` (`zinops.py`,
the inner `split`): tracks parenthesis depth and breaks on whitespace
only at depth zero. -/
def splitStep (st : List String × List Char × Int) (c : Char) :
    List String × List Char × Int :=
  match st with
  | (result, current, depth) =>
    if c == '(' then (result, current ++ [c], depth + 1)
    else if c == ')' then (result, current ++ [c], depth - 1)
    else if c.isWhitespace && depth == 0 then
      (if current == [] then result else result ++ [String.mk current], [], depth)
    else (result, current ++ [c], depth)

/-- The custom split of `parser`: whitespace-delimited units, except
that whitespace inside parentheses is kept inside the unit. -/
def splitUnits (s : String) : List String :=
  match (trimChars s.data).foldl splitStep ([], [], 0) with
  | (result, current, _) =>
    if current == [] then result else result ++ [String.mk current]

/-- Non-overlapping left-to-right split on a separator sequence
(Python `str.split(sep)`), fuelled so that it evaluates by iota
reduction.  The fuel is always at least the list length plus one. -/
def splitOnAuxC (sep : List Char) : Nat → List Char → List Char →
    List (List Char)
  | 0, l, cur => [cur ++ l]
  | _ + 1, [], cur => [cur]
  | f + 1, c :: rest, cur =>
    if sep.isPrefixOf (c :: rest) then
      cur :: splitOnAuxC sep f ((c :: rest).drop sep.length) []
    else splitOnAuxC sep f rest (cur ++ [c])

/-- Python `pattern.split(sep)` for a nonempty separator. -/
def splitOnStr (s sep : String) : List String :=
  (splitOnAuxC sep.data (s.data.length + 1) s.data []).map String.mk

/-- `parser` (`zinops.py` lines 12-42): requires the `->` separator and
splits each half into units.  A pattern with more than one `->` makes
the Python tuple unpacking fail with a `ValueError`. -/
def parser (pattern : String) : Except ZErr (List String × List String) :=
  match splitOnStr pattern "->" with
  | [_] => .error .noSeparator
  | [i, o] => .ok (splitUnits i, splitUnits o)
  | _ => .error .valueError

/-- Python `str.strip('()')`: drop leading and trailing parenthesis
characters. -/
def stripParens (s : String) : String :=
  String.mk (((s.data.dropWhile (fun c => c == '(' || c == ')')).reverse.dropWhile
    (fun c => c == '(' || c == ')')).reverse)

/-- The maximal runs of non-whitespace characters, in order. -/
def wsTokens : List Char → List Char → List (List Char)
  | [], cur => if cur == [] then [] else [cur.reverse]
  | c :: rest, cur =>
    if c.isWhitespace then
      if cur == [] then wsTokens rest [] else cur.reverse :: wsTokens rest []
    else wsTokens rest (c :: cur)

/-- Python `str.split()`: split on whitespace runs, dropping empties. -/
def splitWs (s : String) : List String :=
  (wsTokens s.data []).map String.mk

/-- Does the string contain the character (Python `c in s`)? -/
def strContains (s : String) (c : Char) : Bool := s.data.contains c

/-- Concatenation of a list of strings (Python `''.join`). -/
def strJoin (parts : List String) : String :=
  String.mk (parts.foldl (fun acc p => acc ++ p.data) [])

/-- `parse_axis` (`zinops.py` lines 46-53).  The second component is
the composite member list; the empty list plays Python's falsy `None`. -/
def parse_axis (axis : String) : String × List String :=
  if axis = "..." then (axis, [])
  else if strContains axis '(' && strContains axis ')' then
    let parts := splitWs (stripParens axis)
    (strJoin parts, parts)
  else (axis, [])

/-- Ordered dictionaries as association lists: first-insertion order is
kept and assignment to an existing key overwrites in place, exactly the
Python `dict`/`OrderedDict` behaviour the source relies on. -/
abbrev ShapeDict := List (String × Nat)

def dictFind? (d : ShapeDict) (k : String) : Option Nat :=
  (d.find? (fun p => p.1 == k)).map (fun p => p.2)

def dictContains (d : ShapeDict) (k : String) : Bool :=
  (dictFind? d k).isSome

def dictSet (d : ShapeDict) (k : String) (v : Nat) : ShapeDict :=
  if dictContains d k then d.map (fun p => if p.1 == k then (k, v) else p)
  else d ++ [(k, v)]

/-- Python dict subscripting: `KeyError` when the key is absent. -/
def dictGet (d : ShapeDict) (k : String) : Except ZErr Nat :=
  match dictFind? d k with
  | some v => .ok v
  | none => .error .keyError

def dictKeys (d : ShapeDict) : List String := d.map (fun p => p.1)

/-- Python list indexing: `IndexError` when out of bounds. -/
def pyGet (l : List Nat) (i : Nat) : Except ZErr Nat :=
  match l.get? i with
  | some v => .ok v
  | none => .error .indexError

/-- A decimal digit character. -/
def digitChar (n : Nat) : Char := Char.ofNat (48 + n)

/-- Decimal digits of a natural number, fuelled so that it evaluates
by iota reduction; the fuel is always at least the number itself. -/
def natDigits : Nat → Nat → List Char
  | 0, _ => []
  | f + 1, n =>
    if n < 10 then [digitChar n]
    else natDigits f (n / 10) ++ [digitChar (n % 10)]

/-- Decimal rendering of a natural number. -/
def natStr (n : Nat) : String := String.mk (natDigits (n + 1) n)

/-- The synthetic name for the i-th ellipsis-covered dimension
(the Python f-string at `zinops.py` line 72). -/
def ellipsisName (i : Nat) : String :=
  String.mk ("_ellipsis_".data ++ (natStr i).data)

/-- The ellipsis arm of the `validate_shapes` input walk: records the
covered dimensions under synthetic names (`zinops.py` lines 68-74). -/
def ellipsisFill (shape : List Nat) (is : List Nat) (d : ShapeDict) (idx : Nat) :
    Except ZErr (ShapeDict × Nat) :=
  match is with
  | [] => .ok (d, idx)
  | i :: rest =>
    match pyGet shape idx with
    | .error e => .error e
    | .ok v => ellipsisFill shape rest (dictSet d (ellipsisName i) v) (idx + 1)

/-- The composite (split) arm of the `validate_shapes` walk
(`zinops.py` lines 78-91). -/
def resolveSplit (components : List String) (axes_length : ShapeDict)
    (current_size : Nat) (d : ShapeDict) : Except ZErr ShapeDict :=
  let known := components.foldl
    (fun acc c => match dictFind? axes_length c with
      | some v => dictSet acc c v
      | none => acc) []
  if known = [] then .error .mustSpecifySplit
  else
    let known_product := (known.map (fun p => p.2)).prod
    if known_product = 0 then .error .zeroDivisionError
    else if current_size % known_product ≠ 0 then .error .cannotSplit
    else
      let remaining_size := current_size / known_product
      let remaining_comps := components.filter (fun c => !(dictContains known c))
      if remaining_comps.length > 1 then .error .onlyOneUnknown
      else .ok (components.foldl
        (fun dd c => dictSet dd c ((dictFind? known c).getD remaining_size)) d)

/-- The input walk of `validate_shapes` (`zinops.py` lines 66-94). -/
def validateWalk (shape : List Nat) (rank baseLen : Nat) (axes_length : ShapeDict) :
    List String → ShapeDict → Nat → Except ZErr (ShapeDict × Nat)
  | [], d, idx => .ok (d, idx)
  | axis :: rest, d, idx =>
    if axis = "..." then
      match ellipsisFill shape (List.range (rank - baseLen)) d idx with
      | .error e => .error e
      | .ok (d', idx') => validateWalk shape rank baseLen axes_length rest d' idx'
    else
      match pyGet shape idx with
      | .error e => .error e
      | .ok current_size =>
        let nc := parse_axis axis
        if nc.2 ≠ [] then
          match resolveSplit nc.2 axes_length current_size d with
          | .error e => .error e
          | .ok d' => validateWalk shape rank baseLen axes_length rest d' (idx + 1)
        else
          validateWalk shape rank baseLen axes_length rest
            (dictSet d nc.1 current_size) (idx + 1)

/-- `validate_shapes` (`zinops.py` lines 57-101).  The `output_axes`
parameter is unused, exactly as in the source. -/
def validate_shapes (shape : List Nat) (input_axes output_axes : List String)
    (axes_length : ShapeDict) : Except ZErr ShapeDict :=
  let base := input_axes.filter (fun ax => ax != "...")
  match validateWalk shape shape.length base.length axes_length input_axes [] 0 with
  | .error e => .error e
  | .ok (d, _) =>
    .ok (axes_length.foldl
      (fun dd p => if dictContains dd p.1 then dd else dd ++ [p]) d)

/-- Does a token look like a composite group (`'(' in ax and ')' in ax`)? -/
def hasParens (ax : String) : Bool := strContains ax '(' && strContains ax ')'

/-- The rank validation of `rearrange` (`zinops.py` lines 116-128). -/
def rankCheck (has_split has_merge ellipsis_present : Bool)
    (baseLen rank : Nat) : Except ZErr Unit :=
  if !has_split && !has_merge then
    if ellipsis_present then
      if rank < baseLen then .error .tooManyAxes else .ok ()
    else if baseLen != rank then .error .transposeRankMismatch else .ok ()
  else if has_split then
    if baseLen != rank then .error .splitRankMismatch else .ok ()
  else .ok ()

/-- The merge-components validation of `rearrange`
(`zinops.py` lines 133-142). -/
def mergePhase (has_merge : Bool) (output_axes : List String) (d : ShapeDict) :
    Except ZErr Unit :=
  if has_merge then
    let output_comps := output_axes.foldl (fun acc ax => acc ++ (parse_axis ax).2) []
    let input_comps := (dictKeys d).filter
      (fun k => !("_ellipsis_".data.isPrefixOf k.data))
    if output_comps.all (fun c => input_comps.contains c) then .ok ()
    else .error .mergeUnknown
  else .ok ()

/-- The output-axes validation of `rearrange` (`zinops.py` lines 144-148). -/
def outputCheck : List String → ShapeDict → Except ZErr Unit
  | [], _ => .ok ()
  | ax :: rest, d =>
    let nc := parse_axis ax
    if nc.1 != "..." && nc.2 == [] && !(dictContains d nc.1) then .error .unknownAxis
    else outputCheck rest d

/-- Mapping of ellipsis slots to their positions
(`zinops.py` lines 158-160). -/
def ellipsisMap (amap : ShapeDict) (idx : Nat) : List Nat → ShapeDict
  | [] => amap
  | j :: rest => ellipsisMap (dictSet amap (ellipsisName j) (idx + j)) idx rest

/-- Mapping of composite members to consecutive post-split positions
(`zinops.py` lines 167-168). -/
def compMap (amap : ShapeDict) (idx : Nat) : List String → ShapeDict
  | [] => amap
  | c :: rest => compMap (dictSet amap c idx) (idx + 1) rest

/-- The operation/axis-map building walk over the input axes
(`zinops.py` lines 154-175). -/
def amapWalk (shape0 : List Nat) (rank baseLen : Nat) (d : ShapeDict) :
    List String → List (Nat × List Nat) → ShapeDict → Nat →
      Except ZErr (List (Nat × List Nat) × ShapeDict × Nat)
  | [], ops, amap, idx => .ok (ops, amap, idx)
  | axis :: rest, ops, amap, idx =>
    if axis = "..." then
      let n := rank - baseLen
      amapWalk shape0 rank baseLen d rest ops
        (ellipsisMap amap idx (List.range n)) (idx + n)
    else
      let nc := parse_axis axis
      if nc.2 ≠ [] then
        match nc.2.mapM (dictGet d) with
        | .error e => .error e
        | .ok split_shape =>
          amapWalk shape0 rank baseLen d rest (ops ++ [(idx, split_shape)])
            (compMap amap idx nc.2) (idx + nc.2.length)
      else
        if nc.1 = "1" then
          match pyGet shape0 idx with
          | .error e => .error e
          | .ok _ =>
            amapWalk shape0 rank baseLen d rest ops (dictSet amap nc.1 idx) (idx + 1)
        else
          amapWalk shape0 rank baseLen d rest ops (dictSet amap nc.1 idx) (idx + 1)

/-- The singleton-position comprehension of `zinops.py` line 199,
including its short-circuit indexing behaviour. -/
def singletonPosAux (shape0 : List Nat) :
    List String → Nat → List Nat → Except ZErr (List Nat)
  | [], _, acc => .ok acc
  | ax :: rest, i, acc =>
    if ax = "1" then
      match pyGet shape0 i with
      | .error e => .error e
      | .ok v => singletonPosAux shape0 rest (i + 1) (if v = 1 then acc ++ [i] else acc)
    else singletonPosAux shape0 rest (i + 1) acc

def singletonPositions (input_axes : List String) (shape0 : List Nat) :
    Except ZErr (List Nat) :=
  singletonPosAux shape0 input_axes 0 []

/-- Expansion of an output ellipsis into final shape and permutation
entries (`zinops.py` lines 184-189). -/
def outEllipsis (d amap : ShapeDict) (is : List Nat) (fs perm : List Nat) :
    Except ZErr (List Nat × List Nat) :=
  match is with
  | [] => .ok (fs, perm)
  | i :: rest =>
    match dictGet d (ellipsisName i) with
    | .error e => .error e
    | .ok v =>
      match dictGet amap (ellipsisName i) with
      | .error e => .error e
      | .ok p => outEllipsis d amap rest (fs ++ [v]) (perm ++ [p])

/-- The walk over the output axes building the final shape and the
permutation (`zinops.py` lines 177-204). -/
def outWalk (d amap axes_lengths : ShapeDict) (input_axes : List String)
    (shape0 : List Nat) (rank baseLen : Nat) :
    List String → List Nat → List Nat → Except ZErr (List Nat × List Nat)
  | [], fs, perm => .ok (fs, perm)
  | ax :: rest, fs, perm =>
    let nc := parse_axis ax
    if nc.1 = "..." then
      match outEllipsis d amap (List.range (rank - baseLen)) fs perm with
      | .error e => .error e
      | .ok (fs', perm') =>
        outWalk d amap axes_lengths input_axes shape0 rank baseLen rest fs' perm'
    else if nc.2 ≠ [] then
      match nc.2.mapM (dictGet d) with
      | .error e => .error e
      | .ok sizes =>
        match nc.2.mapM (dictGet amap) with
        | .error e => .error e
        | .ok ps =>
          outWalk d amap axes_lengths input_axes shape0 rank baseLen rest
            (fs ++ [sizes.prod]) (perm ++ ps)
    else
      if dictContains axes_lengths nc.1 && !(dictContains amap nc.1) then
        match singletonPositions input_axes shape0 with
        | .error e => .error e
        | .ok [] => .error .indexError
        | .ok (p :: _) =>
          outWalk d amap axes_lengths input_axes shape0 rank baseLen rest
            (fs ++ [(dictFind? axes_lengths nc.1).getD 0]) (perm ++ [p])
      else
        match dictGet d nc.1 with
        | .error e => .error e
        | .ok v =>
          match dictGet amap nc.1 with
          | .error e => .error e
          | .ok p =>
            outWalk d amap axes_lengths input_axes shape0 rank baseLen rest
              (fs ++ [v]) (perm ++ [p])

/-- Everything the execution phase (`zinops.py` lines 206-235)
consumes, produced by the compilation phase. -/
structure CompileOut where
  ops : List (Nat × List Nat)
  permutation : List Nat
  final_shape : List Nat
  has_split : Bool
  has_merge : Bool
  input_axes : List String
  output_axes : List String
  shape_dict : ShapeDict
  axes_lengths : ShapeDict
  rank : Nat
  baseLen : Nat
  deriving DecidableEq, Repr

/-- The compilation phase of `rearrange` (`zinops.py` lines 106-204):
parsing, rank checks, shape validation, merge and output checks, and
plan construction.  No backend primitive is involved. -/
def compile (tensor : Tensor) (pattern : String) (axes_lengths : ShapeDict) :
    Except ZErr CompileOut :=
  match parser pattern with
  | .error e => .error e
  | .ok (input_axes, output_axes) =>
    let has_split := input_axes.any hasParens
    let has_merge := output_axes.any hasParens
    let ellipsis_present := input_axes.contains "..." || output_axes.contains "..."
    let base := input_axes.filter (fun ax => ax != "...")
    let rank := tensor.shape.length
    match rankCheck has_split has_merge ellipsis_present base.length rank with
    | .error e => .error e
    | .ok _ =>
      match validate_shapes tensor.shape input_axes output_axes axes_lengths with
      | .error e => .error e
      | .ok shape_dict =>
        match mergePhase has_merge output_axes shape_dict with
        | .error e => .error e
        | .ok _ =>
          match outputCheck output_axes shape_dict with
          | .error e => .error e
          | .ok _ =>
            match amapWalk tensor.shape rank base.length shape_dict input_axes [] [] 0 with
            | .error e => .error e
            | .ok (ops, amap, _) =>
              match outWalk shape_dict amap axes_lengths input_axes tensor.shape rank
                  base.length output_axes [] [] with
              | .error e => .error e
              | .ok (final_shape, permutation) =>
                .ok ⟨ops, permutation, final_shape, has_split, has_merge, input_axes,
                  output_axes, shape_dict, axes_lengths, rank, base.length⟩

/-- Row-major strides of a shape. -/
def listStrides : List Nat → List Nat
  | [] => []
  | _ :: t => t.prod :: listStrides t

/-- Row-major flat index of a multi-index. -/
def flattenIdx (strides multi : List Nat) : Nat :=
  ((multi.zip strides).map (fun p => p.1 * p.2)).sum

/-- Multi-index of a row-major flat index. -/
def unflattenIdx (s : List Nat) (k : Nat) : List Nat :=
  ((listStrides s).zip s).map (fun p => k / p.1 % p.2)

/-- Model of `ndarray.reshape`: the element count must be unchanged;
the flat row-major data is reused. -/
def np_reshape (t : Tensor) (s : List Nat) : Except ZErr Tensor :=
  if s.prod = t.shape.prod then .ok ⟨s, t.data⟩ else .error .npReshapeError

/-- No duplicate entries (Boolean). -/
def nodupB : List Nat → Bool
  | [] => true
  | x :: xs => !(xs.contains x) && nodupB xs

/-- Model of `np.transpose`: the axes list must be a permutation of
the array's axes; the data is reindexed accordingly. -/
def np_transpose (t : Tensor) (perm : List Nat) : Except ZErr Tensor :=
  if perm.length == t.shape.length && nodupB perm &&
      perm.all (fun i => i < t.shape.length) then
    let outShape := perm.map (fun i => t.shape.getD i 0)
    let stridesIn := listStrides t.shape
    .ok ⟨outShape, (List.range outShape.prod).map (fun k =>
      t.data.getD
        (flattenIdx (perm.map (fun i => stridesIn.getD i 0)) (unflattenIdx outShape k)) 0)⟩
  else .error .npTransposeError

/-- numpy broadcast compatibility: shapes aligned at the trailing end,
each source dimension equal to the target one or equal to one. -/
def broadcastCompat (src tgt : List Nat) : Bool :=
  src.length ≤ tgt.length &&
    (List.range src.length).all (fun k =>
      src.getD (src.length - 1 - k) 0 == tgt.getD (tgt.length - 1 - k) 0 ||
      src.getD (src.length - 1 - k) 0 == 1)

/-- Model of `np.broadcast_to`: size-one dimensions are expanded by
repetition. -/
def np_broadcast_to (t : Tensor) (target : List Nat) : Except ZErr Tensor :=
  if broadcastCompat t.shape target then
    let r := t.shape.length
    .ok ⟨target, (List.range target.prod).map (fun k =>
      let m := unflattenIdx target k
      let mi := (List.range r).map (fun i =>
        if t.shape.getD i 0 == 1 then 0 else m.getD (target.length - r + i) 0)
      t.data.getD (flattenIdx (listStrides t.shape) mi) 0)⟩
  else .error .npBroadcastError

/-- The broadcast-shape construction of `zinops.py` lines 220-229
(performed during execution, just before `np.broadcast_to`). -/
def bshapeWalk (d axes_lengths : ShapeDict) (rank baseLen : Nat) :
    List String → List Nat → Except ZErr (List Nat)
  | [], acc => .ok acc
  | ax :: rest, acc =>
    if ax = "..." then
      match (List.range (rank - baseLen)).mapM (fun i => dictGet d (ellipsisName i)) with
      | .error e => .error e
      | .ok vs => bshapeWalk d axes_lengths rank baseLen rest (acc ++ vs)
    else if (parse_axis ax).2 ≠ [] then
      match (parse_axis ax).2.mapM (dictGet d) with
      | .error e => .error e
      | .ok sizes => bshapeWalk d axes_lengths rank baseLen rest (acc ++ [sizes.prod])
    else
      bshapeWalk d axes_lengths rank baseLen rest
        (acc ++ [(dictFind? d ax).getD ((dictFind? axes_lengths ax).getD 1)])

/-- The split-reshape loop of `zinops.py` lines 207-212. -/
def applyOps (result : Tensor) (current_shape : List Nat) :
    List (Nat × List Nat) → Except ZErr (Tensor × List Nat)
  | [] => .ok (result, current_shape)
  | op :: rest =>
    let new_shape := current_shape.take op.1 ++ op.2 ++ current_shape.drop (op.1 + 1)
    match np_reshape result new_shape with
    | .error e => .error e
    | .ok r => applyOps r new_shape rest

/-- The execution phase of `rearrange` (`zinops.py` lines 206-235):
the only part that invokes backend primitives. -/
def execPlan (tensor : Tensor) (c : CompileOut) : Except ZErr Tensor :=
  match applyOps tensor tensor.shape c.ops with
  | .error e => .error e
  | .ok (result, current_shape) =>
    let step2 : Except ZErr Tensor :=
      if c.permutation ≠ [] then np_transpose result c.permutation else .ok result
    match step2 with
    | .error e => .error e
    | .ok result2 =>
      if c.final_shape ≠ [] then
        if current_shape.any (fun s => s == 1) && !c.has_split && !c.has_merge then
          match bshapeWalk c.shape_dict c.axes_lengths c.rank c.baseLen c.output_axes [] with
          | .error e => .error e
          | .ok bshape => np_broadcast_to result2 bshape
        else np_reshape result2 c.final_shape
      else .ok result2

/-- `rearrange` (`zinops.py` lines 106-235): compile, then execute. -/
def rearrange (tensor : Tensor) (pattern : String) (axes_lengths : ShapeDict) :
    Except ZErr Tensor :=
  match compile tensor pattern axes_lengths with
  | .error e => .error e
  | .ok c => execPlan tensor c

/-- A concrete test array: the given shape filled with `0, 1, 2, ...`
in row-major order. -/
def rangeTensor (s : List Nat) : Tensor :=
  ⟨s, (List.range s.prod).map Int.ofNat⟩

/-- Gather a list along a permutation vector: entry `j` of the result
is entry `p j` of `l`. -/
def permApply (p : List Nat) (l : List Nat) : List Nat :=
  p.map (fun i => l.getD i 0)

/-- The invariant coupling the shape dictionary produced by the input
walk of `validate_shapes` with the axis map produced by the plan
builder: both have the same domain, and every name maps to an in-range
position whose dimension size is the name's recorded size. -/
def DictRel (shape : List Nat) (dw amap : ShapeDict) : Prop :=
  (∀ k, (dictFind? dw k).isSome ↔ (dictFind? amap k).isSome) ∧
  (∀ k i, dictFind? amap k = some i →
    i < shape.length ∧ dictFind? dw k = some (shape.getD i 0))

/- ### Helper lemmas: row-major index arithmetic -/

theorem listStrides_cons (a : Nat) (t : List Nat) :
    listStrides (a :: t) = t.prod :: listStrides t := rfl

theorem listStrides_length (s : List Nat) : (listStrides s).length = s.length := by
  induction s with
  | nil => rfl
  | cons a t ih => simp [listStrides_cons, ih]

theorem unflattenIdx_cons (a : Nat) (t : List Nat) (k : Nat) :
    unflattenIdx (a :: t) k = (k / t.prod % a) :: unflattenIdx t k := rfl

theorem flattenIdx_cons (w ws m ms : _) :
    flattenIdx (w :: ws) (m :: ms) = m * w + flattenIdx ws ms := by
  simp [flattenIdx, Nat.add_comm]

theorem flattenIdx_nil_left (m : List Nat) : flattenIdx [] m = 0 := by
  simp [flattenIdx]

theorem flattenIdx_nil_right (w : List Nat) : flattenIdx w [] = 0 := by
  simp [flattenIdx]

/-- Bound on the flat index of a pointwise bounded multi-index. -/
theorem flattenIdx_lt (s : List Nat) (m : List Nat)
    (hb : List.Forall₂ (· < ·) m s) :
    flattenIdx (listStrides s) m < s.prod := by
  induction hb with
  | nil => simp [flattenIdx]
  | @cons m0 a mr t hlt htl ih =>
    rw [listStrides_cons, flattenIdx_cons, List.prod_cons]
    calc m0 * t.prod + flattenIdx (listStrides t) mr
        < m0 * t.prod + t.prod := by omega
      _ = (m0 + 1) * t.prod := by ring
      _ ≤ a * t.prod := Nat.mul_le_mul_right _ (by omega)

/-- Flattening the unflattening of `k` gives `k` modulo the total
element count. -/
theorem flattenIdx_unflattenIdx (s : List Nat) (k : Nat) :
    flattenIdx (listStrides s) (unflattenIdx s k) = k % s.prod := by
  induction s with
  | nil => simp [unflattenIdx, flattenIdx, listStrides, Nat.mod_one]
  | cons a t ih =>
    rw [unflattenIdx_cons, listStrides_cons, flattenIdx_cons, ih, List.prod_cons]
    rcases Nat.eq_zero_or_pos t.prod with h0 | hpos
    · simp [h0]
    rcases Nat.eq_zero_or_pos a with ha0 | hapos
    · rw [ha0]
      simp only [Nat.mod_zero, Nat.zero_mul, Nat.mod_zero]
      rw [Nat.mul_comm]
      exact Nat.div_add_mod k t.prod
    conv_rhs => rw [show a * t.prod = t.prod * a from Nat.mul_comm a t.prod,
      Nat.mod_mul]
    ring

/-- Unflattening a flat index built from a pointwise bounded
multi-index (plus any whole multiple of the element count) recovers
the multi-index. -/
theorem unflattenIdx_flattenIdx (s : List Nat) (m : List Nat)
    (hb : List.Forall₂ (· < ·) m s) (c : Nat) :
    unflattenIdx s (flattenIdx (listStrides s) m + c * s.prod) = m := by
  induction hb generalizing c with
  | nil => simp [unflattenIdx, listStrides]
  | @cons m0 a mr t hlt htl ih =>
    rw [listStrides_cons, flattenIdx_cons, unflattenIdx_cons, List.prod_cons]
    have hflt : flattenIdx (listStrides t) mr < t.prod := flattenIdx_lt t mr htl
    have harr : m0 * t.prod + flattenIdx (listStrides t) mr + c * (a * t.prod) =
        flattenIdx (listStrides t) mr + (m0 + c * a) * t.prod := by ring
    rw [harr]
    have hpos : 0 < t.prod := by omega
    have h1 : (flattenIdx (listStrides t) mr + (m0 + c * a) * t.prod) /
        t.prod % a = m0 := by
      rw [Nat.add_mul_div_right _ _ hpos, Nat.div_eq_of_lt hflt]
      simp [Nat.add_mul_mod_self_right, Nat.mod_eq_of_lt hlt]
    rw [h1, ih (m0 + c * a)]

/-- Reading a list back out of `getD` over its index range. -/
theorem map_getD_range (l : List Nat) :
    (List.range l.length).map (fun i => l.getD i 0) = l := by
  induction l with
  | nil => rfl
  | cons a t ih =>
    rw [List.length_cons, List.range_succ_eq_map, List.map_cons, List.map_map]
    have hc : ((fun i => (a :: t).getD i 0) ∘ Nat.succ) = fun i => t.getD i 0 := by
      funext i; simp
    rw [hc, ih]
    simp

/-- If some output token is a simple name missing from the shape
dictionary, the output check fails with the unknown-axis error. -/
theorem outputCheck_of_unknown (oa : List String) (d : ShapeDict)
    (h : ∃ ax ∈ oa, (parse_axis ax).1 ≠ "..." ∧ (parse_axis ax).2 = [] ∧
      dictContains d (parse_axis ax).1 = false) :
    outputCheck oa d = .error .unknownAxis := by
  induction oa with
  | nil => rcases h with ⟨ax, hax, _⟩; cases hax
  | cons a rest ih =>
    rw [outputCheck]
    by_cases hc : ((parse_axis a).1 != "..." && (parse_axis a).2 == [] &&
        !(dictContains d (parse_axis a).1)) = true
    · rw [if_pos hc]
    · rw [if_neg hc]
      apply ih
      rcases h with ⟨ax, hax, h1, h2, h3⟩
      rcases List.mem_cons.mp hax with rfl | hmem
      · exfalso
        apply hc
        simp only [Bool.and_eq_true, bne_iff_ne, beq_iff_eq, Bool.not_eq_true']
        exact ⟨⟨h1, h2⟩, h3⟩
      · exact ⟨ax, hmem, h1, h2, h3⟩

/-- Resolution of the fully hinted composite `(a b)` against a
dimension of size `n`: only divisibility by the hinted product is
checked, never equality with it. -/
theorem resolveSplit_ab (n x y : Nat) (hpos : 0 < x * y) :
    resolveSplit ["a","b"] [("a",x),("b",y)] n [] =
      if n % (x * y) = 0 then .ok [("a",x),("b",y)] else .error .cannotSplit := by
  simp [resolveSplit, dictFind?, dictSet, dictContains, List.find?]
  intro h
  rcases h with h | h <;> simp [h] at hpos

/-- `validate_shapes` on the fully hinted composite pattern:
divisibility is the only test. -/
theorem validate_ab (n x y : Nat) (hpos : 0 < x * y) :
    validate_shapes [n] ["(a b)"] ["a","b"] [("a",x),("b",y)] =
      if n % (x * y) = 0 then .ok [("a",x),("b",y)] else .error .cannotSplit := by
  have h := resolveSplit_ab n x y hpos
  by_cases hd : n % (x * y) = 0
  · rw [if_pos hd] at h ⊢
    simp [validate_shapes, validateWalk, h, parse_axis, strContains, stripParens,
      splitWs, wsTokens, dictContains, dictFind?, List.find?, pyGet]
  · rw [if_neg hd] at h ⊢
    simp [validate_shapes, validateWalk, h, parse_axis, strContains, stripParens,
      splitWs, wsTokens, pyGet]

/- ### Helper lemmas: permutations and the backend primitives -/

theorem nodupB_iff (l : List Nat) : nodupB l = true ↔ l.Nodup := by
  induction l with
  | nil => simp [nodupB]
  | cons a t ih => simp [nodupB, ih, List.nodup_cons]

theorem unflattenIdx_length (s : List Nat) (k : Nat) :
    (unflattenIdx s k).length = s.length := by
  simp [unflattenIdx, List.length_zip, listStrides_length]

/-- The entries of an unflattened index are pointwise below the shape,
whenever every dimension is positive. -/
theorem unflattenIdx_bounds_of_pos (s : List Nat) (k : Nat)
    (hall : ∀ d ∈ s, 0 < d) :
    List.Forall₂ (· < ·) (unflattenIdx s k) s := by
  induction s with
  | nil => simp [unflattenIdx]
  | cons a t ih =>
    rw [unflattenIdx_cons]
    exact List.Forall₂.cons
      (Nat.mod_lt _ (hall a (List.mem_cons_self a t)))
      (ih (fun d hd => hall d (List.mem_cons_of_mem a hd)))

/-- The entries of an unflattened index are pointwise below the shape,
whenever the flat index is below the element count. -/
theorem unflattenIdx_bounds (s : List Nat) (k : Nat) (hk : k < s.prod) :
    List.Forall₂ (· < ·) (unflattenIdx s k) s := by
  apply unflattenIdx_bounds_of_pos
  intro d hd
  by_contra h0
  have hd0 : d = 0 := by omega
  have : s.prod = 0 := List.prod_eq_zero (hd0 ▸ hd)
  omega

theorem np_reshape_ok (t u : Tensor) (s : List Nat)
    (h : np_reshape t s = .ok u) :
    u.shape = s ∧ u.data = t.data ∧ s.prod = t.shape.prod := by
  by_cases hc : s.prod = t.shape.prod
  · rw [np_reshape, if_pos hc] at h
    exact ⟨(Except.ok.inj h).symm ▸ rfl, (Except.ok.inj h).symm ▸ rfl, hc⟩
  · rw [np_reshape, if_neg hc] at h
    cases h

theorem np_transpose_ok (t u : Tensor) (perm : List Nat)
    (h : np_transpose t perm = .ok u) :
    perm.length = t.shape.length ∧ perm.Nodup ∧
      (∀ i ∈ perm, i < t.shape.length) ∧
      u.shape = permApply perm t.shape ∧
      u.data = (List.range (permApply perm t.shape).prod).map (fun k =>
        t.data.getD (flattenIdx (permApply perm (listStrides t.shape))
          (unflattenIdx (permApply perm t.shape) k)) 0) := by
  by_cases hc : (perm.length == t.shape.length && nodupB perm &&
      perm.all (fun i => i < t.shape.length)) = true
  · rw [np_transpose, if_pos hc] at h
    simp only [Bool.and_eq_true, beq_iff_eq, List.all_eq_true,
      decide_eq_true_eq] at hc
    injection h with h2
    refine ⟨hc.1.1, (nodupB_iff perm).mp hc.1.2, fun i hi => hc.2 i hi, ?_, ?_⟩
    · rw [← h2]; rfl
    · rw [← h2]; rfl
  · rw [np_transpose, if_neg hc] at h
    cases h

/-- Every index below the length appears in a duplicate-free,
bounded list of full length (pigeonhole). -/
theorem perm_mem_of_lt (perm : List Nat) (n : Nat)
    (hlen : perm.length = n) (hnd : perm.Nodup)
    (hbd : ∀ i ∈ perm, i < n) : ∀ i, i < n → i ∈ perm := by
  intro i hi
  have hsub : perm.toFinset ⊆ Finset.range n := by
    intro j hj
    rw [List.mem_toFinset] at hj
    exact Finset.mem_range.mpr (hbd j hj)
  have hcard : (Finset.range n).card ≤ perm.toFinset.card := by
    rw [List.toFinset_card_of_nodup hnd, hlen, Finset.card_range]
  have heq : perm.toFinset = Finset.range n :=
    Finset.eq_of_subset_of_card_le hsub hcard
  have : i ∈ perm.toFinset := heq ▸ Finset.mem_range.mpr hi
  exact List.mem_toFinset.mp this

/-- A duplicate-free bounded list of full length is a permutation of
`List.range`. -/
theorem perm_perm_range (perm : List Nat) (n : Nat)
    (hlen : perm.length = n) (hnd : perm.Nodup)
    (hbd : ∀ i ∈ perm, i < n) : perm.Perm (List.range n) := by
  rw [List.perm_ext_iff_of_nodup hnd (List.nodup_range n)]
  intro a
  constructor
  · intro ha; exact List.mem_range.mpr (hbd a ha)
  · intro ha; exact perm_mem_of_lt perm n hlen hnd hbd a (List.mem_range.mp ha)

/-- Gathering a shape along a valid permutation preserves the product. -/
theorem permApply_prod (perm s : List Nat)
    (hlen : perm.length = s.length) (hnd : perm.Nodup)
    (hbd : ∀ i ∈ perm, i < s.length) :
    (permApply perm s).prod = s.prod := by
  have hp : perm.Perm (List.range s.length) :=
    perm_perm_range perm s.length hlen hnd hbd
  calc (permApply perm s).prod
      = ((List.range s.length).map (fun i => s.getD i 0)).prod :=
        (hp.map (fun i => s.getD i 0)).prod_eq
    _ = s.prod := by rw [map_getD_range]

theorem permApply_length (p l : List Nat) : (permApply p l).length = p.length := by
  simp [permApply]

theorem getD_mem_of_lt (l : List Nat) (i : Nat) (h : i < l.length) :
    l.getD i 0 ∈ l := by
  rw [List.getD_eq_getElem _ _ h]
  exact List.getElem_mem h

theorem permApply_getD (p l : List Nat) (j : Nat) (hj : j < p.length) :
    (permApply p l).getD j 0 = l.getD (p.getD j 0) 0 := by
  rw [permApply, List.getD_eq_getElem _ _ (by simpa using hj),
    List.getElem_map, List.getD_eq_getElem _ _ hj]

/-- The flat index as a finite sum over the positions. -/
theorem flattenIdx_eq_sum (m w : List Nat) (hlen : w.length = m.length) :
    flattenIdx w m = ∑ j ∈ Finset.range m.length, m.getD j 0 * w.getD j 0 := by
  induction m generalizing w with
  | nil => simp [flattenIdx]
  | cons m0 mr ih =>
    cases w with
    | nil => simp at hlen
    | cons w0 ws =>
      rw [flattenIdx_cons, List.length_cons, Finset.sum_range_succ']
      simp only [List.getD_cons_succ, List.getD_cons_zero]
      rw [ih ws (by simpa using hlen)]
      omega

/-- Summing over positions through a permutation and its inverse:
gathering both the strides and the multi-index along the same valid
permutation leaves the flat index unchanged. -/
theorem flattenIdx_permApply (p q w l : List Nat) (n : Nat)
    (hpl : p.length = n) (hql : q.length = n)
    (hwl : w.length = n) (hll : l.length = n)
    (hpb : ∀ i ∈ p, i < n) (hqb : ∀ i ∈ q, i < n)
    (hqp : ∀ j, j < n → q.getD (p.getD j 0) 0 = j)
    (hpq : ∀ i, i < n → p.getD (q.getD i 0) 0 = i) :
    flattenIdx (permApply p w) (permApply p l) = flattenIdx w l := by
  rw [flattenIdx_eq_sum (permApply p l) (permApply p w)
      (by rw [permApply_length, permApply_length]),
    flattenIdx_eq_sum l w (by omega), permApply_length, hpl, hll]
  refine Finset.sum_nbij' (fun j => p.getD j 0) (fun i => q.getD i 0)
    ?_ ?_ ?_ ?_ ?_
  · intro a ha
    rw [Finset.mem_range] at ha ⊢
    exact hpb _ (getD_mem_of_lt p a (by omega))
  · intro a ha
    rw [Finset.mem_range] at ha ⊢
    exact hqb _ (getD_mem_of_lt q a (by omega))
  · intro a ha; exact hqp a (Finset.mem_range.mp ha)
  · intro a ha; exact hpq a (Finset.mem_range.mp ha)
  · intro a ha
    rw [Finset.mem_range] at ha
    rw [permApply_getD p l a (by omega), permApply_getD p w a (by omega)]

/-- Gathering along a permutation and then along its inverse is the
identity. -/
theorem permApply_permApply_inv (p q l : List Nat) (n : Nat)
    (hpl : p.length = n) (hql : q.length = n) (hll : l.length = n)
    (hqb : ∀ i ∈ q, i < n)
    (hpq : ∀ i, i < n → p.getD (q.getD i 0) 0 = i) :
    permApply q (permApply p l) = l := by
  apply List.ext_getElem
  · rw [permApply_length, hql, hll]
  intro i h1 h2
  rw [permApply_length, hql] at h1
  have hi : i < n := h1
  have hqi : q.getD i 0 < n := hqb _ (getD_mem_of_lt q i (by omega))
  rw [← List.getD_eq_getElem _ 0 (by rw [permApply_length]; omega),
    ← List.getD_eq_getElem _ 0 h2,
    permApply_getD q (permApply p l) i (by omega),
    permApply_getD p l (q.getD i 0) (by omega),
    hpq i hi]

theorem getD_map_range (N k : Nat) (f : Nat → Int) :
    (((List.range N).map f).getD k 0) = if k < N then f k else 0 := by
  by_cases hk : k < N
  · rw [if_pos hk]
    rw [List.getD_eq_getElem?_getD, List.getElem?_map]
    simp [List.getElem?_range hk]
  · rw [if_neg hk]
    rw [List.getD_eq_getElem?_getD]
    have : N ≤ k := Nat.le_of_not_lt hk
    rw [List.getElem?_eq_none (by simpa using this)]
    rfl

theorem tensor_eq (u v : Tensor) (hs : u.shape = v.shape)
    (hd : u.data = v.data) : u = v := by
  cases u; cases v
  simp_all

/-- Pointwise bound extraction from `Forall₂`. -/
theorem forall₂_lt_getD (m s : List Nat) (h : List.Forall₂ (· < ·) m s)
    (i : Nat) (hi : i < m.length) : m.getD i 0 < s.getD i 0 := by
  induction h generalizing i with
  | nil => simp at hi
  | cons hab htl ih =>
    cases i with
    | zero => simpa using hab
    | succ j =>
      simp only [List.getD_cons_succ]
      exact ih j (by simpa using hi)

theorem forall₂_lt_length (m s : List Nat) (h : List.Forall₂ (· < ·) m s) :
    m.length = s.length := List.Forall₂.length_eq h

/-- Build a pointwise `<` relation from lengths and `getD` bounds. -/
theorem forall₂_lt_of_getD (m s : List Nat) (hlen : m.length = s.length)
    (h : ∀ i, i < m.length → m.getD i 0 < s.getD i 0) :
    List.Forall₂ (· < ·) m s := by
  induction m generalizing s with
  | nil =>
    cases s with
    | nil => exact List.Forall₂.nil
    | cons b t => simp at hlen
  | cons a ms ih =>
    cases s with
    | nil => simp at hlen
    | cons b t =>
      refine List.Forall₂.cons ?_ (ih t (by simpa using hlen) ?_)
      · simpa using h 0 (by simp)
      · intro i hi
        simpa using h (i + 1) (by simpa using hi)

/-- Composing a transpose with its inverse transpose restores the
original array, data included. -/
theorem np_transpose_inverse (t u v : Tensor) (p q : List Nat)
    (ht : np_transpose t p = .ok u) (hu : np_transpose u q = .ok v)
    (hdata : t.data.length = t.shape.prod)
    (hqp : ∀ j, j < t.shape.length → q.getD (p.getD j 0) 0 = j)
    (hpq : ∀ i, i < t.shape.length → p.getD (q.getD i 0) 0 = i) :
    v = t := by
  obtain ⟨hplen, hpnd, hpbd, hushape, hudata⟩ := np_transpose_ok t u p ht
  obtain ⟨hqlen, hqnd, hqbd, hvshape, hvdata⟩ := np_transpose_ok u v q hu
  have hulen : u.shape.length = t.shape.length := by
    rw [hushape, permApply_length, hplen]
  have hqlen' : q.length = t.shape.length := by rw [hqlen, hulen]
  have hqbd' : ∀ i ∈ q, i < t.shape.length := fun i hi => hulen ▸ hqbd i hi
  have hQS : permApply q u.shape = t.shape := by
    rw [hushape,
      permApply_permApply_inv p q t.shape t.shape.length hplen hqlen' rfl hqbd' hpq]
  have hvs : v.shape = t.shape := by rw [hvshape, hQS]
  have hstrU : (listStrides u.shape).length = t.shape.length := by
    rw [listStrides_length, hulen]
  have hprodU : u.shape.prod = t.shape.prod := by
    conv_rhs => rw [← hQS]
    rw [permApply_prod q u.shape (by omega) hqnd hqbd]
  refine tensor_eq v t hvs ?_
  have hvdlen : v.data.length = t.data.length := by
    rw [hvdata, List.length_map, List.length_range, hQS, hdata]
  apply List.ext_getElem hvdlen
  intro k hk1 hk2
  have hkprod : k < t.shape.prod := by rw [← hdata]; omega
  -- the multi-index of k in the original shape
  have hmb : List.Forall₂ (· < ·) (unflattenIdx t.shape k) t.shape :=
    unflattenIdx_bounds t.shape k hkprod
  have hmlen : (unflattenIdx t.shape k).length = t.shape.length :=
    unflattenIdx_length t.shape k
  have hmback : permApply q (permApply p (unflattenIdx t.shape k)) =
      unflattenIdx t.shape k :=
    permApply_permApply_inv p q (unflattenIdx t.shape k) t.shape.length
      hplen hqlen' hmlen hqbd' hpq
  -- the gathered multi-index is pointwise below the permuted shape
  have hpmb : List.Forall₂ (· < ·) (permApply p (unflattenIdx t.shape k)) u.shape := by
    apply forall₂_lt_of_getD
    · rw [permApply_length, hplen, hulen]
    · intro i hi
      rw [permApply_length] at hi
      have hpi : p.getD i 0 < t.shape.length :=
        hpbd _ (getD_mem_of_lt p i hi)
      rw [permApply_getD p _ i hi, hushape, permApply_getD p _ i hi]
      exact forall₂_lt_getD _ _ hmb _ (by omega)
  -- the flat index v reads from u
  have hJ : flattenIdx (permApply q (listStrides u.shape)) (unflattenIdx t.shape k) =
      flattenIdx (listStrides u.shape) (permApply p (unflattenIdx t.shape k)) := by
    conv_lhs => rw [← hmback]
    exact flattenIdx_permApply q p (listStrides u.shape)
      (permApply p (unflattenIdx t.shape k)) t.shape.length hqlen' hplen hstrU
      (by rw [permApply_length, hplen]) hqbd' (fun i hi => hpbd i hi) hpq hqp
  have hJlt : flattenIdx (listStrides u.shape)
      (permApply p (unflattenIdx t.shape k)) < u.shape.prod :=
    flattenIdx_lt u.shape _ hpmb
  -- evaluate v.data at k
  have hv_at : v.data.getD k 0 =
      u.data.getD (flattenIdx (listStrides u.shape)
        (permApply p (unflattenIdx t.shape k))) 0 := by
    rw [hvdata, List.getD_eq_getElem _ _ (by
      rw [List.length_map, List.length_range, hQS]; omega)]
    rw [List.getElem_map, List.getElem_range, hQS, hJ]
  -- evaluate u.data at the computed index
  have hu_at : u.data.getD (flattenIdx (listStrides u.shape)
      (permApply p (unflattenIdx t.shape k))) 0 =
      t.data.getD (flattenIdx (permApply p (listStrides t.shape))
        (unflattenIdx (permApply p t.shape)
          (flattenIdx (listStrides u.shape)
            (permApply p (unflattenIdx t.shape k))))) 0 := by
    have hlt : flattenIdx (listStrides u.shape)
        (permApply p (unflattenIdx t.shape k)) <
        (permApply p t.shape).prod := by rw [← hushape]; omega
    rw [hudata, List.getD_eq_getElem _ _ (by
      rw [List.length_map, List.length_range]; omega)]
    rw [List.getElem_map, List.getElem_range]
  have hunfl : unflattenIdx (permApply p t.shape)
      (flattenIdx (listStrides u.shape)
        (permApply p (unflattenIdx t.shape k))) =
      permApply p (unflattenIdx t.shape k) := by
    rw [hushape] at hpmb ⊢
    simpa using unflattenIdx_flattenIdx (permApply p t.shape)
      (permApply p (unflattenIdx t.shape k)) hpmb 0
  have hflat : flattenIdx (permApply p (listStrides t.shape))
      (permApply p (unflattenIdx t.shape k)) = k := by
    rw [flattenIdx_permApply p q (listStrides t.shape) (unflattenIdx t.shape k)
      t.shape.length hplen hqlen' (listStrides_length t.shape) hmlen
      (fun i hi => hpbd i hi) hqbd' hqp hpq]
    rw [flattenIdx_unflattenIdx, Nat.mod_eq_of_lt hkprod]
  rw [← List.getD_eq_getElem v.data 0 hk1, ← List.getD_eq_getElem t.data 0 hk2,
    hv_at, hu_at, hunfl, hflat]

/- ### Helper lemmas: evaluating the pipeline on simple-name patterns -/

theorem parse_axis_simple (ax : String) (h : hasParens ax = false) :
    parse_axis ax = (ax, []) := by
  rw [parse_axis]
  by_cases he : ax = "..."
  · rw [if_pos he]
  · rw [if_neg he, hasParens] at *
    rw [if_neg (by rw [h]; exact Bool.false_ne_true)]

theorem pyGet_ok (l : List Nat) (i : Nat) (h : i < l.length) :
    pyGet l i = .ok (l.getD i 0) := by
  rw [pyGet, List.get?_eq_getElem? , List.getElem?_eq_getElem h,
    List.getD_eq_getElem _ _ h]

theorem find?_overwrite_ne (d : ShapeDict) (k : String) (v : Nat)
    (k' : String) (hne : k' ≠ k) :
    List.find? (fun p => p.1 == k')
        (d.map (fun p => if p.1 == k then (k, v) else p)) =
      List.find? (fun p => p.1 == k') d := by
  induction d with
  | nil => rfl
  | cons q rest ih =>
    rw [List.map_cons]
    cases hq : (q.1 == k) with
    | true =>
      have h1 : ¬((fun (p : String × Nat) => p.1 == k') ((k, v))) = true := by
        simp only [beq_iff_eq]
        exact fun hh => hne hh.symm
      have h2 : ¬((fun (p : String × Nat) => p.1 == k') q) = true := by
        simp only [beq_iff_eq]
        rw [beq_iff_eq] at hq
        rw [hq]
        exact fun hh => hne hh.symm
      rw [if_pos rfl,
        @List.find?_cons_of_neg _ (fun p => p.1 == k') (k, v) _ h1,
        @List.find?_cons_of_neg _ (fun p => p.1 == k') q _ h2, ih]
    | false =>
      rw [if_neg Bool.false_ne_true]
      cases hq' : (q.1 == k') with
      | true =>
        rw [@List.find?_cons_of_pos _ (fun p => p.1 == k') q _ hq',
          @List.find?_cons_of_pos _ (fun p => p.1 == k') q _ hq']
      | false =>
        have h3 : ¬((fun (p : String × Nat) => p.1 == k') q) = true := by
          show ¬(q.1 == k') = true
          rw [hq']; exact Bool.false_ne_true
        rw [@List.find?_cons_of_neg _ (fun p => p.1 == k') q _ h3,
          @List.find?_cons_of_neg _ (fun p => p.1 == k') q _ h3, ih]

theorem find?_overwrite_eq (d : ShapeDict) (k : String) (v : Nat)
    (hs : (dictFind? d k).isSome) :
    List.find? (fun p => p.1 == k)
        (d.map (fun p => if p.1 == k then (k, v) else p)) = some (k, v) := by
  induction d with
  | nil => simp [dictFind?] at hs
  | cons q rest ih =>
    rw [List.map_cons]
    cases hq : (q.1 == k) with
    | true =>
      rw [if_pos rfl,
        @List.find?_cons_of_pos _ (fun p => p.1 == k) (k, v) _ (by simp)]
    | false =>
      have h3 : ¬((fun (p : String × Nat) => p.1 == k) q) = true := by
        show ¬(q.1 == k) = true
        rw [hq]; exact Bool.false_ne_true
      rw [if_neg Bool.false_ne_true,
        @List.find?_cons_of_neg _ (fun p => p.1 == k) q _ h3]
      apply ih
      rw [dictFind?,
        @List.find?_cons_of_neg _ (fun p => p.1 == k) q _ h3] at hs
      exact hs

theorem dictFind?_dictSet (d : ShapeDict) (k : String) (v : Nat) (k' : String) :
    dictFind? (dictSet d k v) k' = if k' = k then some v else dictFind? d k' := by
  by_cases hc : dictContains d k
  · rw [dictSet, if_pos hc]
    by_cases he : k' = k
    · subst he
      rw [if_pos rfl, dictFind?, find?_overwrite_eq d k' v hc]
      rfl
    · rw [if_neg he, dictFind?, find?_overwrite_ne d k v k' he, dictFind?]
  · rw [dictSet, if_neg hc]
    have hnone : List.find? (fun p => p.1 == k) d = none := by
      rw [dictContains, dictFind?] at hc
      cases hfd : List.find? (fun p => p.1 == k) d with
      | none => rfl
      | some w => rw [hfd] at hc; simp at hc
    rw [dictFind?, List.find?_append]
    by_cases he : k' = k
    · subst he
      rw [if_pos rfl, hnone,
        @List.find?_cons_of_pos _ (fun p => p.1 == k') (k', v) _ (by simp)]
      rfl
    · rw [if_neg he]
      have hk1 : List.find? (fun p => p.1 == k') [(k, v)] = none := by
        rw [@List.find?_cons_of_neg _ (fun p => p.1 == k') (k, v) _ (by
          simp only [beq_iff_eq]
          exact fun hh => he hh.symm)]
        rfl
      rw [hk1, dictFind?]
      cases List.find? (fun p => p.1 == k') d <;> rfl

theorem dictContains_dictSet (d : ShapeDict) (k : String) (v : Nat) (k' : String) :
    dictContains (dictSet d k v) k' =
      if k' = k then true else dictContains d k' := by
  rw [dictContains, dictFind?_dictSet]
  by_cases he : k' = k <;> simp [he, dictContains]

/-- Evaluation of the `validate_shapes` input walk on a list of
duplicate-free simple names: one dimension is consumed per token and
each name maps to its dimension's size. -/
theorem validateWalk_simple (shape : List Nat) (rank baseLen : Nat)
    (hints : ShapeDict) :
    ∀ (toks : List String) (d0 : ShapeDict) (idx : Nat),
    (∀ ax ∈ toks, hasParens ax = false ∧ ax ≠ "...") →
    toks.Nodup →
    idx + toks.length ≤ shape.length →
    ∃ d1, validateWalk shape rank baseLen hints toks d0 idx =
        .ok (d1, idx + toks.length) ∧
      ∀ k, dictFind? d1 k = if k ∈ toks then
          some (shape.getD (idx + List.indexOf k toks) 0)
        else dictFind? d0 k := by
  intro toks
  induction toks with
  | nil =>
    intro d0 idx _ _ _
    exact ⟨d0, rfl, fun k => by simp⟩
  | cons ax rest ih =>
    intro d0 idx htoks hnd hbound
    have hax := htoks ax (List.mem_cons_self ax rest)
    have hidx : idx < shape.length := by
      simp only [List.length_cons] at hbound; omega
    obtain ⟨d1, hw, hlook⟩ := ih (dictSet d0 ax (shape.getD idx 0)) (idx + 1)
      (fun a ha => htoks a (List.mem_cons_of_mem ax ha))
      (List.Nodup.of_cons hnd)
      (by simp only [List.length_cons] at hbound; omega)
    refine ⟨d1, ?_, ?_⟩
    · have hlen : idx + (ax :: rest).length = idx + 1 + rest.length := by
        simp only [List.length_cons]
        omega
      rw [validateWalk, if_neg hax.2, pyGet_ok shape idx hidx,
        parse_axis_simple ax hax.1]
      simp only [ne_eq, not_true_eq_false, if_neg (by simp : ¬([] : List String) ≠ [])]
      rw [if_neg (fun h => h), hlen, hw]
    · intro k
      rw [hlook k]
      by_cases hk : k ∈ ax :: rest
      · rw [if_pos hk]
        rcases List.mem_cons.mp hk with rfl | hmem
        · have hnot : k ∉ rest := (List.nodup_cons.mp hnd).1
          rw [if_neg hnot, dictFind?_dictSet, if_pos rfl,
            List.indexOf_cons_self]
          simp
        · by_cases hkax : k = ax
          · subst hkax
            have hnot : k ∉ rest := (List.nodup_cons.mp hnd).1
            exact absurd hmem hnot
          · rw [if_pos hmem, List.indexOf_cons_ne _ (fun hh => hkax hh.symm)]
            have harith : idx + 1 + List.indexOf k rest =
                idx + (List.indexOf k rest + 1) := by omega
            rw [harith]
      · have hk1 : k ∉ rest := fun hh => hk (List.mem_cons_of_mem ax hh)
        have hk2 : k ≠ ax := fun hh => hk (hh ▸ List.mem_cons_self ax rest)
        rw [if_neg hk, if_neg hk1, dictFind?_dictSet, if_neg hk2]

/-- Evaluation of the axis-map walk on duplicate-free simple names:
no split operations are emitted and each name maps to its position. -/
theorem amapWalk_simple (shape : List Nat) (rank baseLen : Nat) (d : ShapeDict) :
    ∀ (toks : List String) (ops0 : List (Nat × List Nat)) (amap0 : ShapeDict)
      (idx : Nat),
    (∀ ax ∈ toks, hasParens ax = false ∧ ax ≠ "...") →
    toks.Nodup →
    idx + toks.length ≤ shape.length →
    ∃ amap1, amapWalk shape rank baseLen d toks ops0 amap0 idx =
        .ok (ops0, amap1, idx + toks.length) ∧
      ∀ k, dictFind? amap1 k = if k ∈ toks then
          some (idx + List.indexOf k toks)
        else dictFind? amap0 k := by
  intro toks
  induction toks with
  | nil =>
    intro ops0 amap0 idx _ _ _
    exact ⟨amap0, rfl, fun k => by simp⟩
  | cons ax rest ih =>
    intro ops0 amap0 idx htoks hnd hbound
    have hax := htoks ax (List.mem_cons_self ax rest)
    have hidx : idx < shape.length := by
      simp only [List.length_cons] at hbound; omega
    obtain ⟨amap1, hw, hlook⟩ := ih ops0 (dictSet amap0 ax idx) (idx + 1)
      (fun a ha => htoks a (List.mem_cons_of_mem ax ha))
      (List.Nodup.of_cons hnd)
      (by simp only [List.length_cons] at hbound; omega)
    refine ⟨amap1, ?_, ?_⟩
    · have hlen : idx + (ax :: rest).length = idx + 1 + rest.length := by
        simp only [List.length_cons]
        omega
      rw [amapWalk, if_neg hax.2, parse_axis_simple ax hax.1]
      simp only [ne_eq, not_true_eq_false, if_neg (by simp : ¬([] : List String) ≠ [])]
      rw [if_neg (fun h => h)]
      by_cases h1 : ax = "1"
      · rw [if_pos h1, pyGet_ok shape idx hidx, hlen, hw]
      · rw [if_neg h1, hlen, hw]
    · intro k
      rw [hlook k]
      by_cases hk : k ∈ ax :: rest
      · rw [if_pos hk]
        rcases List.mem_cons.mp hk with rfl | hmem
        · have hnot : k ∉ rest := (List.nodup_cons.mp hnd).1
          rw [if_neg hnot, dictFind?_dictSet, if_pos rfl,
            List.indexOf_cons_self]
          simp
        · by_cases hkax : k = ax
          · subst hkax
            exact absurd hmem (List.nodup_cons.mp hnd).1
          · rw [if_pos hmem, List.indexOf_cons_ne _ (fun hh => hkax hh.symm)]
            have harith : idx + 1 + List.indexOf k rest =
                idx + (List.indexOf k rest + 1) := by omega
            rw [harith]
      · have hk1 : k ∉ rest := fun hh => hk (List.mem_cons_of_mem ax hh)
        have hk2 : k ≠ ax := fun hh => hk (hh ▸ List.mem_cons_self ax rest)
        rw [if_neg hk, if_neg hk1, dictFind?_dictSet, if_neg hk2]

/-- The output-axes validation succeeds when every output token is an
ellipsis, a composite, or a name present in the dictionary. -/
theorem outputCheck_ok (oa : List String) (d : ShapeDict)
    (h : ∀ ax ∈ oa, dictContains d (parse_axis ax).1 = true ∨
      (parse_axis ax).1 = "..." ∨ (parse_axis ax).2 ≠ []) :
    outputCheck oa d = .ok () := by
  induction oa with
  | nil => rfl
  | cons ax rest ih =>
    rw [outputCheck, if_neg ?_]
    · exact ih (fun a ha => h a (List.mem_cons_of_mem ax ha))
    · intro hcond
      simp only [Bool.and_eq_true, bne_iff_ne, beq_iff_eq,
        Bool.not_eq_true'] at hcond
      rcases h ax (List.mem_cons_self ax rest) with hc | hc | hc
      · rw [hcond.2] at hc; cases hc
      · exact hcond.1.1 hc
      · exact hc hcond.1.2

/-- Evaluation of the output walk on simple names with no hints: each
token contributes its dictionary size and its axis-map position. -/
theorem outWalk_simple (d amap : ShapeDict) (ia : List String)
    (shape0 : List Nat) (rank baseLen : Nat) :
    ∀ (toks : List String) (fs0 perm0 : List Nat),
    (∀ ax ∈ toks, hasParens ax = false ∧ ax ≠ "...") →
    (∀ ax ∈ toks, (dictFind? d ax).isSome ∧ (dictFind? amap ax).isSome) →
    outWalk d amap [] ia shape0 rank baseLen toks fs0 perm0 =
      .ok (fs0 ++ toks.map (fun ax => (dictFind? d ax).getD 0),
           perm0 ++ toks.map (fun ax => (dictFind? amap ax).getD 0)) := by
  intro toks
  induction toks with
  | nil => intro fs0 perm0 _ _; simp [outWalk]
  | cons ax rest ih =>
    intro fs0 perm0 htoks hsome
    have hax := htoks ax (List.mem_cons_self ax rest)
    obtain ⟨hd, ha⟩ := hsome ax (List.mem_cons_self ax rest)
    obtain ⟨v, hv⟩ := Option.isSome_iff_exists.mp hd
    obtain ⟨i, hi⟩ := Option.isSome_iff_exists.mp ha
    rw [outWalk, parse_axis_simple ax hax.1]
    simp only [ne_eq, not_true_eq_false]
    rw [if_neg hax.2, if_neg (fun h => h)]
    have hcond : (dictContains ([] : ShapeDict) ax &&
        !(dictContains amap ax)) = false := rfl
    rw [if_neg (by rw [hcond]; exact Bool.false_ne_true)]
    rw [dictGet, hv, dictGet, hi]
    show outWalk d amap [] ia shape0 rank baseLen rest (fs0 ++ [v]) (perm0 ++ [i]) =
      Except.ok (fs0 ++ List.map (fun ax => (dictFind? d ax).getD 0) (ax :: rest),
        perm0 ++ List.map (fun ax => (dictFind? amap ax).getD 0) (ax :: rest))
    rw [ih (fs0 ++ [v]) (perm0 ++ [i])
      (fun a haa => htoks a (List.mem_cons_of_mem ax haa))
      (fun a haa => hsome a (List.mem_cons_of_mem ax haa))]
    rw [List.map_cons, List.map_cons, hv, hi]
    simp [List.append_assoc]

/-- Evaluation of the broadcast-shape walk on simple names: it repeats
the dictionary sizes. -/
theorem bshapeWalk_simple (d hints : ShapeDict) (rank baseLen : Nat) :
    ∀ (toks : List String) (acc0 : List Nat),
    (∀ ax ∈ toks, hasParens ax = false ∧ ax ≠ "...") →
    (∀ ax ∈ toks, (dictFind? d ax).isSome) →
    bshapeWalk d hints rank baseLen toks acc0 =
      .ok (acc0 ++ toks.map (fun ax => (dictFind? d ax).getD 0)) := by
  intro toks
  induction toks with
  | nil => intro acc0 _ _; simp [bshapeWalk]
  | cons ax rest ih =>
    intro acc0 htoks hsome
    have hax := htoks ax (List.mem_cons_self ax rest)
    obtain ⟨v, hv⟩ := Option.isSome_iff_exists.mp
      (hsome ax (List.mem_cons_self ax rest))
    rw [bshapeWalk, if_neg hax.2, parse_axis_simple ax hax.1]
    simp only [ne_eq, not_true_eq_false]
    rw [if_neg (fun h => h)]
    rw [ih (acc0 ++ [(dictFind? d ax).getD ((dictFind? hints ax).getD 1)])
      (fun a haa => htoks a (List.mem_cons_of_mem ax haa))
      (fun a haa => hsome a (List.mem_cons_of_mem ax haa))]
    rw [List.map_cons, hv]
    simp [List.append_assoc, Option.getD_some]

theorem unflattenIdx_getD (s : List Nat) (k i : Nat) (hi : i < s.length) :
    (unflattenIdx s k).getD i 0 =
      k / (listStrides s).getD i 0 % s.getD i 0 := by
  have hzl : ((listStrides s).zip s).length = s.length := by
    rw [List.length_zip, listStrides_length, Nat.min_self]
  rw [unflattenIdx, List.getD_eq_getElem _ _ (by
      rw [List.length_map, hzl]; omega),
    List.getElem_map, List.getElem_zip,
    List.getD_eq_getElem _ _ (by rw [listStrides_length]; omega),
    List.getD_eq_getElem _ _ hi]

/-- Broadcasting an array to its own shape is the identity. -/
theorem np_broadcast_self (u : Tensor) (hd : u.data.length = u.shape.prod) :
    np_broadcast_to u u.shape = .ok u := by
  have hcompat : broadcastCompat u.shape u.shape = true := by
    rw [broadcastCompat]
    simp
  rw [np_broadcast_to, if_pos hcompat]
  refine congrArg Except.ok (tensor_eq _ _ rfl ?_)
  apply List.ext_getElem
  · rw [List.length_map, List.length_range, hd]
  intro k hk1 hk2
  rw [List.length_map, List.length_range] at hk1
  rw [List.getElem_map, List.getElem_range]
  have hmi : (List.range u.shape.length).map (fun i =>
      if u.shape.getD i 0 == 1 then 0
      else (unflattenIdx u.shape k).getD (u.shape.length - u.shape.length + i) 0) =
      unflattenIdx u.shape k := by
    have hlen2 : (unflattenIdx u.shape k).length = u.shape.length :=
      unflattenIdx_length u.shape k
    apply List.ext_getElem
    · rw [List.length_map, List.length_range, hlen2]
    intro i hi1 hi2
    rw [List.length_map, List.length_range] at hi1
    rw [List.getElem_map, List.getElem_range]
    rw [← List.getD_eq_getElem (unflattenIdx u.shape k) 0 hi2]
    cases h1 : (u.shape.getD i 0 == 1) with
    | true =>
      rw [beq_iff_eq] at h1
      rw [if_pos rfl, unflattenIdx_getD u.shape k i (by omega), h1, Nat.mod_one]
    | false =>
      simp
  dsimp only
  rw [hmi, flattenIdx_unflattenIdx, Nat.mod_eq_of_lt hk1,
    List.getD_eq_getElem _ _ hk2]

/-- Compilation of a pure transposition pattern: duplicate-free simple
input names and a permutation of them on the output side.  No split
operations are emitted; the permutation vector sends each output token
to its input position. -/
theorem compile_transpose (t : Tensor) (P : String) (ns ms : List String)
    (hp : parser P = .ok (ns, ms))
    (hnstoks : ∀ ax ∈ ns, hasParens ax = false ∧ ax ≠ "...")
    (hnd : ns.Nodup) (hperm : ms.Perm ns)
    (hrank : t.shape.length = ns.length) :
    ∃ d1 amap1,
      compile t P [] = .ok ⟨[],
        ms.map (fun ax => (dictFind? amap1 ax).getD 0),
        ms.map (fun ax => (dictFind? d1 ax).getD 0),
        false, false, ns, ms, d1, [], t.shape.length, ns.length⟩ ∧
      (∀ k ∈ ns, dictFind? d1 k = some (t.shape.getD (List.indexOf k ns) 0)) ∧
      (∀ k ∈ ns, dictFind? amap1 k = some (List.indexOf k ns)) := by
  have hmstoks : ∀ ax ∈ ms, hasParens ax = false ∧ ax ≠ "..." :=
    fun ax hax => hnstoks ax (hperm.subset hax)
  have hsplit : ns.any hasParens = false := by
    rw [List.any_eq_false]
    intro x hx
    rw [(hnstoks x hx).1]
    exact Bool.false_ne_true
  have hmergeB : ms.any hasParens = false := by
    rw [List.any_eq_false]
    intro x hx
    rw [(hmstoks x hx).1]
    exact Bool.false_ne_true
  have hc1 : ns.contains "..." = false := by
    have : "..." ∉ ns := fun hh => (hnstoks _ hh).2 rfl
    simp [this]
  have hc2 : ms.contains "..." = false := by
    have : "..." ∉ ms := fun hh => (hmstoks _ hh).2 rfl
    simp [this]
  have hbase : ns.filter (fun ax => ax != "...") = ns := by
    rw [List.filter_eq_self]
    intro a ha
    simpa using (hnstoks a ha).2
  have hrk : rankCheck false false false ns.length t.shape.length = .ok () := by
    rw [rankCheck]
    simp [hrank]
  have hbound : 0 + ns.length ≤ t.shape.length := by omega
  obtain ⟨d1, hwv, hlookd⟩ := validateWalk_simple t.shape t.shape.length
    ns.length [] ns [] 0 hnstoks hnd hbound
  obtain ⟨amap1, hwa, hlooka⟩ := amapWalk_simple t.shape t.shape.length
    ns.length d1 ns [] [] 0 hnstoks hnd hbound
  have hld : ∀ k ∈ ns, dictFind? d1 k =
      some (t.shape.getD (List.indexOf k ns) 0) := by
    intro k hk
    rw [hlookd k, if_pos hk, Nat.zero_add]
  have hla : ∀ k ∈ ns, dictFind? amap1 k = some (List.indexOf k ns) := by
    intro k hk
    rw [hlooka k, if_pos hk, Nat.zero_add]
  have hval : validate_shapes t.shape ns ms [] = .ok d1 := by
    simp only [validate_shapes, hbase, hwv, List.foldl_nil]
  have hmrg : mergePhase false ms d1 = .ok () := rfl
  have hoc : outputCheck ms d1 = .ok () := by
    apply outputCheck_ok
    intro ax hax
    left
    rw [parse_axis_simple ax (hmstoks ax hax).1, dictContains,
      hld ax (hperm.subset hax)]
    rfl
  have how := outWalk_simple d1 amap1 ns t.shape t.shape.length ns.length ms [] []
    hmstoks (fun ax hax =>
      ⟨by rw [hld ax (hperm.subset hax)]; rfl,
       by rw [hla ax (hperm.subset hax)]; rfl⟩)
  refine ⟨d1, amap1, ?_, hld, hla⟩
  simp only [compile, hp, hsplit, hmergeB, hc1, hc2, Bool.or_self, hbase, hrk,
    hval, hmrg, hoc, hwa, how, List.nil_append]

/-- Running `rearrange` on a pure transposition pattern succeeds and
equals the backend transpose along the induced permutation vector. -/
theorem rearrange_transpose (t : Tensor) (P : String) (ns ms : List String)
    (hp : parser P = .ok (ns, ms))
    (hnstoks : ∀ ax ∈ ns, hasParens ax = false ∧ ax ≠ "...")
    (hnd : ns.Nodup) (hperm : ms.Perm ns)
    (hrank : t.shape.length = ns.length)
    (hdata : t.data.length = t.shape.prod)
    (hne : ms ≠ []) :
    ∃ u, rearrange t P [] = .ok u ∧
      np_transpose t (ms.map (fun ax => List.indexOf ax ns)) = .ok u := by
  obtain ⟨d1, amap1, hcomp, hld, hla⟩ :=
    compile_transpose t P ns ms hp hnstoks hnd hperm hrank
  have hpermmap : ms.map (fun ax => (dictFind? amap1 ax).getD 0) =
      ms.map (fun ax => List.indexOf ax ns) := by
    apply List.map_congr_left
    intro ax hax
    rw [hla ax (hperm.subset hax)]
    rfl
  have hfsmap : ms.map (fun ax => (dictFind? d1 ax).getD 0) =
      permApply (ms.map (fun ax => List.indexOf ax ns)) t.shape := by
    rw [permApply, List.map_map]
    apply List.map_congr_left
    intro ax hax
    rw [hld ax (hperm.subset hax)]
    rfl
  have hmsnd : ms.Nodup := hperm.symm.nodup hnd
  have hplen : (ms.map (fun ax => List.indexOf ax ns)).length = t.shape.length := by
    rw [List.length_map, hperm.length_eq, hrank]
  have hpnd : (ms.map (fun ax => List.indexOf ax ns)).Nodup := by
    apply List.Nodup.map_on ?_ hmsnd
    intro x hx y hy hxy
    have hxm : x ∈ ns := hperm.subset hx
    have hym : y ∈ ns := hperm.subset hy
    have hxl : List.indexOf x ns < ns.length := List.indexOf_lt_length.mpr hxm
    have hyl : List.indexOf y ns < ns.length := List.indexOf_lt_length.mpr hym
    have h1 : ns[List.indexOf x ns] = x := List.getElem_indexOf hxl
    have h2 : ns[List.indexOf y ns] = y := List.getElem_indexOf hyl
    rw [← h1, ← h2]
    congr 1
  have hpbd : ∀ i ∈ ms.map (fun ax => List.indexOf ax ns), i < t.shape.length := by
    intro i hi
    rw [List.mem_map] at hi
    obtain ⟨ax, hax, rfl⟩ := hi
    rw [hrank]
    exact List.indexOf_lt_length.mpr (hperm.subset hax)
  have hguard : ((ms.map (fun ax => List.indexOf ax ns)).length ==
      t.shape.length && nodupB (ms.map (fun ax => List.indexOf ax ns)) &&
      (ms.map (fun ax => List.indexOf ax ns)).all
        (fun i => i < t.shape.length)) = true := by
    simp only [Bool.and_eq_true, beq_iff_eq, List.all_eq_true, decide_eq_true_eq]
    exact ⟨⟨hplen, (nodupB_iff _).mpr hpnd⟩, hpbd⟩
  obtain ⟨u, hT⟩ : ∃ u, np_transpose t (ms.map (fun ax => List.indexOf ax ns)) =
      .ok u := by
    rw [np_transpose, if_pos hguard]
    exact ⟨_, rfl⟩
  obtain ⟨_, _, _, hushape, hudata⟩ := np_transpose_ok t u _ hT
  have hudlen : u.data.length = u.shape.prod := by
    rw [hudata, List.length_map, List.length_range, hushape]
  refine ⟨u, ?_, hT⟩
  rw [rearrange, hcomp]
  simp only [execPlan]
  have hops : applyOps t t.shape ([] : List (Nat × List Nat)) = .ok (t, t.shape) := rfl
  rw [hops]
  dsimp only
  have hpne : ms.map (fun ax => (dictFind? amap1 ax).getD 0) ≠ [] := by
    rw [hpermmap]
    intro hh
    exact hne (List.map_eq_nil_iff.mp hh)
  rw [if_pos hpne, hpermmap, hT]
  dsimp only
  have hfne : ms.map (fun ax => (dictFind? d1 ax).getD 0) ≠ [] := by
    intro hh
    exact hne (List.map_eq_nil_iff.mp hh)
  rw [if_pos hfne]
  have hbranch : ∀ b : Bool, (b && !false && !false) = b := by
    intro b; simp
  rw [hbranch]
  cases hany : t.shape.any (fun s => s == 1) with
  | true =>
    rw [if_pos rfl]
    have hbw := bshapeWalk_simple d1 [] t.shape.length ns.length ms []
      (fun ax hax => hnstoks ax (hperm.subset hax))
      (fun ax hax => by rw [hld ax (hperm.subset hax)]; rfl)
    rw [hbw, List.nil_append]
    have hfs_u : ms.map (fun ax => (dictFind? d1 ax).getD 0) = u.shape := by
      rw [hfsmap, hushape]
    rw [hfs_u]
    exact np_broadcast_self u hudlen
  | false =>
    rw [if_neg Bool.false_ne_true]
    rw [np_reshape, if_pos (by rw [hfsmap, hushape])]
    have : (⟨ms.map (fun ax => (dictFind? d1 ax).getD 0), u.data⟩ : Tensor) = u := by
      apply tensor_eq
      · rw [hfsmap, hushape]
      · rfl
    rw [this]

theorem indexOf_getElem_self (l : List String) (hnd : l.Nodup) (j : Nat)
    (hj : j < l.length) : List.indexOf l[j] l = j := by
  have h1 : List.indexOf l[j] l < l.length :=
    List.indexOf_lt_length.mpr (l.getElem_mem hj)
  have h2 : l[List.indexOf l[j] l] = l[j] := List.getElem_indexOf h1
  exact (List.Nodup.getElem_inj_iff hnd).mp h2

/-- `rearrange` on an empty pattern (no tokens on either side) returns
the input array unchanged. -/
theorem rearrange_empty_pattern (t : Tensor) (P : String)
    (hp : parser P = .ok ([], []))
    (h0 : t.shape.length = 0) :
    rearrange t P [] = .ok t := by
  have hcomp : compile t P [] =
      .ok ⟨[], [], [], false, false, [], [], [], [], 0, 0⟩ := by
    simp only [compile, hp, h0]
    rfl
  rw [rearrange, hcomp]
  rfl

/- ### Claim theorems -/

/-- C3 counterexample.  The round-trip claim fails for merge patterns:
`a b c -> (a b) c` succeeds on a `(2,1,1)` array, but the
syntactically reversed pattern `(a b) c -> a b c` — whose input side
contains no unresolved singleton or broadcast axis, so it is not
excluded by the claim — fails outright: re-splitting the merged
dimension would need hints the reversed call does not have. -/
theorem c3_counterexample :
    rearrange ⟨[2,1,1], [7,8]⟩ "a b c -> (a b) c" [] = .ok ⟨[2,1], [7,8]⟩ ∧
    rearrange ⟨[2,1], [7,8]⟩ "(a b) c -> a b c" [] =
      .error .mustSpecifySplit :=
  ⟨rfl, rfl⟩

/-- C3 amended: the round-trip property holds for pure transposition
patterns — both sides sequences of simple names (no composite, no
ellipsis), the input side duplicate-free and the output side a
permutation of it.  For any array of matching rank, rearranging with
such a pattern succeeds, and rearranging the result with the
syntactically reversed pattern (the two sides swapped) succeeds and
reproduces the original array exactly: its shape and its elements in
their original order.  Patterns whose reversed input side contains a
composite (a merge in the original pattern) are excluded: re-splitting
requires hints that the reversed call does not receive (see the
counterexample). -/
theorem c3_roundtrip_transpose (t : Tensor) (P Prev : String)
    (ns ms : List String)
    (hp : parser P = .ok (ns, ms))
    (hq : parser Prev = .ok (ms, ns))
    (hnstoks : ∀ ax ∈ ns, hasParens ax = false ∧ ax ≠ "...")
    (hnd : ns.Nodup) (hperm : ms.Perm ns)
    (hrank : t.shape.length = ns.length)
    (hdata : t.data.length = t.shape.prod) :
    ∃ u, rearrange t P [] = .ok u ∧ rearrange u Prev [] = .ok t := by
  by_cases hms : ms = []
  · subst hms
    have hns : ns = [] := hperm.symm.eq_nil
    subst hns
    have h0 : t.shape.length = 0 := by rw [hrank]; rfl
    exact ⟨t, rearrange_empty_pattern t P hp h0,
      rearrange_empty_pattern t Prev hq h0⟩
  · obtain ⟨u, hru, hTu⟩ :=
      rearrange_transpose t P ns ms hp hnstoks hnd hperm hrank hdata hms
    obtain ⟨hplen, hpnd, hpbd, hushape, hudata⟩ := np_transpose_ok t u _ hTu
    have hmstoks : ∀ ax ∈ ms, hasParens ax = false ∧ ax ≠ "..." :=
      fun ax hax => hnstoks ax (hperm.subset hax)
    have hmsnd : ms.Nodup := hperm.symm.nodup hnd
    have hlen_eq : ms.length = ns.length := hperm.length_eq
    have hurank : u.shape.length = ms.length := by
      rw [hushape, permApply_length, List.length_map]
    have hudlen : u.data.length = u.shape.prod := by
      rw [hudata, List.length_map, List.length_range, hushape]
    have hnsne : ns ≠ [] := by
      intro hh
      subst hh
      exact hms hperm.eq_nil
    obtain ⟨v, hrv, hTv⟩ :=
      rearrange_transpose u Prev ms ns hq hmstoks hmsnd hperm.symm hurank
        hudlen hnsne
    have hveq : v = t := by
      apply np_transpose_inverse t u v (ms.map (fun ax => List.indexOf ax ns))
        (ns.map (fun ax => List.indexOf ax ms)) hTu hTv hdata
      · intro j hj
        have hj' : j < ms.length := by omega
        have hmem : ms[j] ∈ ns := hperm.subset (ms.getElem_mem hj')
        have hlt : List.indexOf ms[j] ns < ns.length :=
          List.indexOf_lt_length.mpr hmem
        have hpj : (ms.map (fun ax => List.indexOf ax ns)).getD j 0 =
            List.indexOf ms[j] ns := by
          rw [List.getD_eq_getElem _ _ (by rw [List.length_map]; omega),
            List.getElem_map]
        have hqj : (ns.map (fun ax => List.indexOf ax ms)).getD
            (List.indexOf ms[j] ns) 0 = List.indexOf ns[List.indexOf ms[j] ns] ms := by
          rw [List.getD_eq_getElem _ _ (by rw [List.length_map]; omega),
            List.getElem_map]
        rw [hpj, hqj, List.getElem_indexOf hlt]
        exact indexOf_getElem_self ms hmsnd j hj'
      · intro i hi
        have hi' : i < ns.length := by omega
        have hmem : ns[i] ∈ ms := hperm.symm.subset (ns.getElem_mem hi')
        have hlt : List.indexOf ns[i] ms < ms.length :=
          List.indexOf_lt_length.mpr hmem
        have hqi : (ns.map (fun ax => List.indexOf ax ms)).getD i 0 =
            List.indexOf ns[i] ms := by
          rw [List.getD_eq_getElem _ _ (by rw [List.length_map]; omega),
            List.getElem_map]
        have hpi : (ms.map (fun ax => List.indexOf ax ns)).getD
            (List.indexOf ns[i] ms) 0 = List.indexOf ms[List.indexOf ns[i] ms] ns := by
          rw [List.getD_eq_getElem _ _ (by rw [List.length_map]; omega),
            List.getElem_map]
        rw [hqi, hpi, List.getElem_indexOf hlt]
        exact indexOf_getElem_self ns hnd i hi'
    exact ⟨u, hru, hveq ▸ hrv⟩

/-- C3 witness: the amended round trip at a concrete instance —
`h w -> w h` then `w h -> h w` on a `(2,3)` array restores the
original array. -/
theorem c3_witness :
    ∃ u, rearrange ⟨[2,3], [0,1,2,3,4,5]⟩ "h w -> w h" [] = .ok u ∧
      rearrange u "w h -> h w" [] = .ok ⟨[2,3], [0,1,2,3,4,5]⟩ :=
  c3_roundtrip_transpose ⟨[2,3], [0,1,2,3,4,5]⟩ "h w -> w h" "w h -> h w"
    ["h","w"] ["w","h"] rfl rfl (by decide) (by decide)
    (by decide) rfl rfl

/-- C5 counterexample.  The claim says the tokenizer fails with
`PatternSyntaxError` on every pattern with unbalanced parentheses, but
the source never tracks balance beyond suppressing whitespace splits:
the unbalanced pattern `"(a b -> c"` parses successfully, the whole
unclosed group becoming one unit. -/
theorem c5_counterexample : parser "(a b -> c" = .ok (["(a b"], ["c"]) := rfl

/-- C5 amended: the tokenizer fails only on the separator condition:
it returns an error precisely when the pattern does not split on `->`
into exactly two halves (no occurrence gives the missing-separator
error, two or more give Python's tuple-unpacking `ValueError`).  It
never checks parenthesis balance, and its splitting can never produce
an empty unit, so no empty-unit failure exists either.  On well-formed
input it produces the whitespace-delimited units of each half, with a
parenthesized group (including internal spaces) kept as one unit. -/
theorem c5_amended (p : String) :
    (∃ e, parser p = .error e) ↔ (splitOnStr p "->").length ≠ 2 := by
  rcases h : splitOnStr p "->" with _ | ⟨a, _ | ⟨b, _ | ⟨c, l⟩⟩⟩ <;>
    simp [parser, h]

/-- C6 counterexample.  The claim says a `RankError` is raised whenever
the array's rank minus the number of non-ellipsis input tokens is
negative, but for a merge-only pattern the source performs no rank
check at all: rank 1 with two explicit input tokens escapes the check
and surfaces as a Python `IndexError` inside the shape walk instead of
the rank error. -/
theorem c6_counterexample :
    rearrange (rangeTensor [6]) "a b -> (a b)" [] = .error .indexError := rfl

/-- C6 amended: the too-many-axes rank error is raised for a negative
count only on the checked paths; in particular, when the pattern has no
split and no merge and an ellipsis is present, rank < (number of
non-ellipsis input tokens) does raise it.  Merge-only patterns skip the
rank check entirely (see the counterexample), and no multiple-ellipsis
check exists anywhere. -/
theorem c6_amended (t : Tensor) (p : String) (h : ShapeDict)
    (ia oa : List String)
    (hp : parser p = .ok (ia, oa))
    (hsplit : ia.any hasParens = false)
    (hmerge : oa.any hasParens = false)
    (hell : (ia.contains "..." || oa.contains "...") = true)
    (hrank : t.shape.length < (ia.filter (fun ax => ax != "...")).length) :
    rearrange t p h = .error .tooManyAxes := by
  have hcomp : compile t p h = .error .tooManyAxes := by
    rw [compile, hp]
    simp only [hsplit, hmerge]
    rw [rankCheck]
    simp only [Bool.not_false, Bool.and_self, if_true, hell, if_pos hrank, if_true]
  rw [rearrange, hcomp]

/-- C6 witness: a rank-0 array against `"... a -> a"` (count 1,
rank 0) raises the too-many-axes error, as the amended claim states. -/
theorem c6_witness :
    rearrange (rangeTensor []) "... a -> a" [] = .error .tooManyAxes :=
  c6_amended (rangeTensor []) "... a -> a" [] ["...", "a"] ["a"]
    rfl rfl rfl rfl (by decide)

/-- C7: the ambiguous-split behaviour.  With no hints both members of
`(h1 h2)` are unresolved and resolution fails at the source's
must-specify raise (the spec's `AmbiguousSplitError` kind: more than
one member unresolved, zero hints); with the hint `h1=3` the same call
succeeds with shape `(3,16)`; and with one hint and two further
unresolved members the source's one-unknown raise (the same ambiguity
kind) fires. -/
theorem c7_ambiguous_split :
    rearrange (rangeTensor [12,4]) "(h1 h2) w -> h1 (h2 w)" [] =
      .error .mustSpecifySplit ∧
    (rearrange (rangeTensor [12,4]) "(h1 h2) w -> h1 (h2 w)" [("h1",3)]).map
      Tensor.shape = .ok [3,16] ∧
    rearrange (rangeTensor [24]) "(a b c) -> a b c" [("a",2)] =
      .error .onlyOneUnknown :=
  ⟨rfl, rfl, rfl⟩

/-- C8: if compilation reaches the output-axes validation (parsing,
rank check, shape validation and merge check all succeed) and some
output token is a simple name (not ellipsis, not a composite) absent
from the shape dictionary — that is, not resolvable from the input
walk, the hints, or the ellipsis expansion — then `rearrange` fails
with the unknown-axis error. -/
theorem c8_unknown_output_axis (t : Tensor) (p : String) (h : ShapeDict)
    (ia oa : List String) (d : ShapeDict)
    (hp : parser p = .ok (ia, oa))
    (hrank : rankCheck (ia.any hasParens) (oa.any hasParens)
      (ia.contains "..." || oa.contains "...")
      (ia.filter (fun ax => ax != "...")).length t.shape.length = .ok ())
    (hval : validate_shapes t.shape ia oa h = .ok d)
    (hmerge : mergePhase (oa.any hasParens) oa d = .ok ())
    (hunk : ∃ ax ∈ oa, (parse_axis ax).1 ≠ "..." ∧ (parse_axis ax).2 = [] ∧
      dictContains d (parse_axis ax).1 = false) :
    rearrange t p h = .error .unknownAxis := by
  have hcomp : compile t p h = .error .unknownAxis := by
    simp only [compile, hp, hrank, hval, hmerge, outputCheck_of_unknown oa d hunk]
  rw [rearrange, hcomp]

/-- C8 witness: `"a b -> a c"` with no hint for `c` on a `(2,3)` array
fails with the unknown-axis error. -/
theorem c8_witness :
    rearrange (rangeTensor [2,3]) "a b -> a c" [] = .error .unknownAxis :=
  c8_unknown_output_axis (rangeTensor [2,3]) "a b -> a c" [] ["a","b"] ["a","c"]
    [("a",2),("b",3)] rfl rfl rfl rfl ⟨"c", by decide⟩

/-- C9: broadcast via singleton.  On the `(3,1,5)` array filled with
`0..14`, pattern `a 1 c -> a b c` with hint `b=4` succeeds with shape
`(3,4,5)`, and the data is exactly the size-1 middle dimension repeated
four times: element `(i,j,k)` of the result is element `(i,0,k)` of the
input. -/
theorem c9_broadcast_singleton :
    rearrange (rangeTensor [3,1,5]) "a 1 c -> a b c" [("b",4)] =
      .ok ⟨[3,4,5], (List.range 60).map (fun t => Int.ofNat (t / 20 * 5 + t % 5))⟩ :=
  rfl

/-- C10: a caller-supplied hint for an axis already resolved during the
input walk is silently ignored — no consistency check is made against
the actual dimension size.  For every hint value `v` (even `999`),
`h w -> w h` on a `(3,4)` array returns the `(4,3)` transpose,
identical to the call without the hint. -/
theorem c10_hint_ignored (v : Nat) :
    rearrange (rangeTensor [3,4]) "h w -> w h" [("h", v)] =
      .ok ⟨[4,3], (List.range 12).map (fun t => Int.ofNat (t % 3 * 4 + t / 3))⟩ :=
  rfl

/-- C2 counterexample.  With every member of the composite supplied by
a hint (`a=2`, `b=3`) and a dimension of size 24, the members' product
6 differs from the consumed size, yet `validate_shapes` succeeds —
the divisibility test `24 % 6 == 0` passes and no member is left to
infer, so no equality check ever runs.  The mismatch only surfaces
later, as a numpy reshape error in the backend, not as the claimed
resolution-time `ShapeMismatchError`. -/
theorem c2_counterexample :
    validate_shapes [24] ["(a b)"] ["a","b"] [("a",2),("b",3)] =
      .ok [("a",2),("b",3)] ∧
    rearrange (rangeTensor [24]) "(a b) -> a b" [("a",2),("b",3)] =
      .error .npReshapeError ∧
    2 * 3 ≠ 24 :=
  ⟨rfl, rfl, by decide⟩

/-- C2 amended: for an input composite, resolution fails with the
shape-mismatch kind error precisely when the consumed dimension's size
is not divisible by the product of the hint-supplied members' sizes.
When every member's size is supplied by a hint and that product
properly divides (but differs from) the dimension size, resolution
succeeds — recording the hinted sizes — and the mismatch surfaces only
later, as a backend reshape error during execution, not as a
resolution-time `ShapeMismatchError`. -/
theorem c2_amended (n x y : Nat) (dat : List Int) (hpos : 0 < x * y) :
    (¬ (x * y) ∣ n →
      validate_shapes [n] ["(a b)"] ["a","b"] [("a",x),("b",y)] =
        .error .cannotSplit) ∧
    ((x * y) ∣ n →
      validate_shapes [n] ["(a b)"] ["a","b"] [("a",x),("b",y)] =
        .ok [("a",x),("b",y)]) ∧
    ((x * y) ∣ n → x * y ≠ n →
      rearrange ⟨[n], dat⟩ "(a b) -> a b" [("a",x),("b",y)] =
        .error .npReshapeError) := by
  refine ⟨fun hnd => ?_, fun hdvd => ?_, fun hdvd hne => ?_⟩
  · have hmod : n % (x * y) ≠ 0 :=
      fun h => hnd (Nat.dvd_iff_mod_eq_zero.mpr h)
    rw [validate_ab n x y hpos, if_neg hmod]
  · have hmod : n % (x * y) = 0 := Nat.dvd_iff_mod_eq_zero.mp hdvd
    rw [validate_ab n x y hpos, if_pos hmod]
  · have hmod : n % (x * y) = 0 := Nat.dvd_iff_mod_eq_zero.mp hdvd
    have hval := validate_ab n x y hpos
    rw [if_pos hmod] at hval
    have hp : parser "(a b) -> a b" = .ok (["(a b)"], ["a","b"]) := rfl
    have hmw : amapWalk [n] 1 1 [("a",x),("b",y)] ["(a b)"] [] [] 0 =
        .ok ([(0,[x,y])], [("a",0),("b",1)], 2) := rfl
    have how : outWalk [("a",x),("b",y)] [("a",0),("b",1)] [("a",x),("b",y)]
        ["(a b)"] [n] 1 1 ["a","b"] [] [] = .ok ([x,y],[0,1]) := rfl
    simp only [rearrange, compile, hp, hval]
    simp [rankCheck, hasParens, strContains, mergePhase, outputCheck, parse_axis,
      stripParens, splitWs, wsTokens, hmw, how, dictGet, dictFind?,
      dictContains, dictSet, dictKeys, List.find?, pyGet, execPlan, applyOps,
      np_reshape, hne]

/-- C2 witness: the amended claim applied at `n=24`, `a=2`, `b=3`. -/
theorem c2_witness :
    validate_shapes [24] ["(a b)"] ["a","b"] [("a",2),("b",3)] =
      .ok [("a",2),("b",3)] ∧
    rearrange ⟨[24], []⟩ "(a b) -> a b" [("a",2),("b",3)] =
      .error .npReshapeError :=
  ⟨(c2_amended 24 2 3 [] (by decide)).2.1 (by decide),
   (c2_amended 24 2 3 [] (by decide)).2.2 (by decide) (by decide)⟩

/-- C1 counterexample.  The claim says every error is detected during
compilation, before any backend primitive executes.  But the
pattern `(a b) c -> a b b` (a repeated output axis) on a `(6,5)` array
with `a=2` compiles successfully; during execution the split reshape to
`(2,3,5)` executes and succeeds, and only then does the backend
transpose fail on the invalid axes list `[0,1,1]` — an error detected
after a backend primitive has already executed. -/
theorem c1_counterexample :
    (∃ c, compile (rangeTensor [6,5]) "(a b) c -> a b b" [("a",2)] = .ok c) ∧
    np_reshape (rangeTensor [6,5]) [2,3,5] =
      .ok ⟨[2,3,5], (rangeTensor [6,5]).data⟩ ∧
    rearrange (rangeTensor [6,5]) "(a b) c -> a b b" [("a",2)] =
      .error .npTransposeError :=
  ⟨⟨_, rfl⟩, rfl, rfl⟩

/-- C1 amended: every error raised by the compilation stages (pattern
parsing, rank checks, shape validation, merge and output checks, plan
construction) is raised before any backend primitive executes —
`rearrange` propagates a compile error unchanged, without entering the
execution phase.  Not every erroneous call is caught at compile time,
however: a compiled plan can still fail inside the backend after a
reshape has executed (see the counterexample). -/
theorem c1_compile_errors_precede_exec (t : Tensor) (p : String)
    (h : ShapeDict) (e : ZErr) (hc : compile t p h = .error e) :
    rearrange t p h = .error e := by
  rw [rearrange, hc]

/-- C1 witness: a pattern without the separator produces a compile
error that `rearrange` propagates unchanged. -/
theorem c1_witness : rearrange (rangeTensor [2]) "ab" [] = .error .noSeparator :=
  c1_compile_errors_precede_exec (rangeTensor [2]) "ab" [] .noSeparator rfl

/-! Element-count bookkeeping for the execution phase. -/

theorem pyGet_ok_inv (l : List Nat) (i v : Nat) (h : pyGet l i = .ok v) :
    i < l.length ∧ l.getD i 0 = v := by
  by_cases hlt : i < l.length
  · rw [pyGet_ok l i hlt] at h
    injection h with h2
    exact ⟨hlt, h2⟩
  · rw [pyGet, List.get?_eq_none.mpr (by omega)] at h
    cases h

theorem dictGet_ok_inv (d : ShapeDict) (k : String) (v : Nat)
    (h : dictGet d k = .ok v) : dictFind? d k = some v := by
  rw [dictGet] at h
  cases hf : dictFind? d k with
  | none => rw [hf] at h; cases h
  | some w => rw [hf] at h; injection h with h2; rw [h2]

theorem dictFind?_nil (k : String) : dictFind? [] k = none := rfl

theorem dictFind?_cons (q : String × Nat) (d : ShapeDict) (k : String) :
    dictFind? (q :: d) k = if k = q.1 then some q.2 else dictFind? d k := by
  rw [dictFind?, dictFind?]
  by_cases hk : k = q.1
  · rw [if_pos hk,
      @List.find?_cons_of_pos _ (fun p => p.1 == k) q _ (by simp [hk])]
    rfl
  · rw [if_neg hk,
      @List.find?_cons_of_neg _ (fun p => p.1 == k) q _ (by
        simp only [beq_iff_eq]
        exact fun hh => hk hh.symm)]

theorem dictFind?_append (d1 d2 : ShapeDict) (k : String) :
    dictFind? (d1 ++ d2) k = (dictFind? d1 k).or (dictFind? d2 k) := by
  rw [dictFind?, dictFind?, dictFind?, List.find?_append]
  cases List.find? (fun p => p.1 == k) d1 <;> rfl

/-- One key lookup through the kwargs-merge fold of `validate_shapes`
(`zinops.py` lines 97-99): a value already present wins, otherwise the
hint value. -/
theorem hintMerge_find (hints : List (String × Nat)) :
    ∀ (dw : ShapeDict) (k : String),
    dictFind? (hints.foldl
      (fun dd p => if dictContains dd p.1 then dd else dd ++ [p]) dw) k =
    (dictFind? dw k).or (dictFind? hints k) := by
  induction hints with
  | nil =>
    intro dw k
    rw [List.foldl_nil, dictFind?_nil]
    cases dictFind? dw k <;> rfl
  | cons q rest ih =>
    intro dw k
    rw [List.foldl_cons]
    by_cases hc : dictContains dw q.1 = true
    · rw [if_pos hc, ih, dictFind?_cons]
      cases hd : dictFind? dw k with
      | some v => rfl
      | none =>
        by_cases hk : k = q.1
        · rw [hk] at hd
          rw [dictContains, hd] at hc
          cases hc
        · rw [if_neg hk]
    · rw [if_neg hc, ih, dictFind?_append, dictFind?_cons, dictFind?_cons]
      cases hd : dictFind? dw k with
      | some v => rfl
      | none =>
        by_cases hk : k = q.1
        · rw [if_pos hk, if_pos hk]
          rfl
        · rw [if_neg hk, if_neg hk, dictFind?_nil]
          rfl

/-- A successful run of the split-reshape loop leaves the tracked shape
equal to the produced tensor's shape and preserves the element count. -/
theorem applyOps_ok (ops : List (Nat × List Nat)) :
    ∀ (r : Tensor) (s : List Nat) (r1 : Tensor) (cur : List Nat),
    r.shape = s → applyOps r s ops = .ok (r1, cur) →
    r1.shape = cur ∧ r1.shape.prod = r.shape.prod := by
  induction ops with
  | nil =>
    intro r s r1 cur hs h
    rw [applyOps] at h
    injection h with h2
    injection h2 with ha hb
    exact ⟨ha ▸ hb ▸ hs, ha ▸ rfl⟩
  | cons op rest ih =>
    intro r s r1 cur hs h
    simp only [applyOps] at h
    cases hre : np_reshape r (s.take op.1 ++ op.2 ++ s.drop (op.1 + 1)) with
    | error e => rw [hre] at h; exact absurd h (by simp)
    | ok r2 =>
      rw [hre] at h
      obtain ⟨hsh, _, hprod⟩ := np_reshape_ok r r2 _ hre
      obtain ⟨h1, h2⟩ := ih r2 _ r1 cur hsh h
      exact ⟨h1, by rw [h2, hsh, hprod]⟩

/-- A successful `np.broadcast_to` returns exactly the target shape. -/
theorem np_broadcast_shape (t u : Tensor) (target : List Nat)
    (h : np_broadcast_to t target = .ok u) : u.shape = target := by
  by_cases hc : broadcastCompat t.shape target = true
  · rw [np_broadcast_to, if_pos hc] at h
    injection h with h2
    rw [← h2]
  · rw [np_broadcast_to, if_neg hc] at h
    cases h

/-- A successful `np.transpose` preserves the element count. -/
theorem np_transpose_prod (t u : Tensor) (perm : List Nat)
    (h : np_transpose t perm = .ok u) : u.shape.prod = t.shape.prod := by
  obtain ⟨hlen, hnd, hbd, hsh, _⟩ := np_transpose_ok t u perm h
  rw [hsh]
  exact permApply_prod perm t.shape hlen hnd hbd

/-- Every position collected by the singleton comprehension points at a
size-one dimension. -/
theorem singletonPosAux_mem (shape0 : List Nat) :
    ∀ (toks : List String) (i : Nat) (acc l : List Nat),
    singletonPosAux shape0 toks i acc = .ok l →
    (∀ q ∈ acc, q < shape0.length ∧ shape0.getD q 0 = 1) →
    ∀ q ∈ l, q < shape0.length ∧ shape0.getD q 0 = 1 := by
  intro toks
  induction toks with
  | nil =>
    intro i acc l h hacc
    rw [singletonPosAux] at h
    injection h with h2
    exact h2 ▸ hacc
  | cons ax rest ih =>
    intro i acc l h hacc
    rw [singletonPosAux] at h
    by_cases hx : ax = "1"
    · rw [if_pos hx] at h
      cases hg : pyGet shape0 i with
      | error e => rw [hg] at h; cases h
      | ok v =>
        rw [hg] at h
        dsimp only at h
        obtain ⟨hib, hiv⟩ := pyGet_ok_inv shape0 i v hg
        by_cases hv1 : v = 1
        · rw [if_pos hv1] at h
          refine ih (i + 1) (acc ++ [i]) l h ?_
          intro q hq
          rcases List.mem_append.mp hq with hq | hq
          · exact hacc q hq
          · have hqi : q = i := List.mem_singleton.mp hq
            subst hqi
            exact ⟨hib, by rw [hiv, hv1]⟩
        · rw [if_neg hv1] at h
          exact ih _ _ _ h hacc
    · rw [if_neg hx] at h
      exact ih _ _ _ h hacc

theorem dictSet_isSome_mono (d : ShapeDict) (k : String) (v : Nat) (k' : String)
    (h : (dictFind? d k').isSome) : (dictFind? (dictSet d k v) k').isSome := by
  rw [dictFind?_dictSet]
  by_cases he : k' = k
  · rw [if_pos he]; rfl
  · rw [if_neg he]; exact h

theorem DictRel_nil (shape : List Nat) : DictRel shape [] [] :=
  ⟨fun _ => Iff.rfl, fun _ _ h => by cases h⟩

/-- Recording the same name in both dictionaries preserves the coupling
invariant, when the recorded size is the dimension at the recorded
position. -/
theorem DictRel_set (shape : List Nat) (dw amap : ShapeDict) (k : String) (i : Nat)
    (hr : DictRel shape dw amap) (hi : i < shape.length) :
    DictRel shape (dictSet dw k (shape.getD i 0)) (dictSet amap k i) := by
  obtain ⟨hdom, hval⟩ := hr
  constructor
  · intro k'
    rw [dictFind?_dictSet, dictFind?_dictSet]
    by_cases he : k' = k
    · simp [he]
    · rw [if_neg he, if_neg he]
      exact hdom k'
  · intro k' j hj
    rw [dictFind?_dictSet] at hj
    rw [dictFind?_dictSet]
    by_cases he : k' = k
    · rw [if_pos he] at hj
      rw [if_pos he]
      injection hj with h2
      exact ⟨h2 ▸ hi, by rw [h2]⟩
    · rw [if_neg he] at hj
      rw [if_neg he]
      exact hval k' j hj

/-- The ellipsis arms of the two input walks stay coupled: filling the
shape dictionary and mapping the ellipsis slots insert matching
entries at matching positions. -/
theorem ellipsis_coupled (shape : List Nat) :
    ∀ (k a : Nat) (dw amap dw' : ShapeDict) (idx0 idxe : Nat),
    DictRel shape dw amap →
    ellipsisFill shape (List.range' a k) dw (idx0 + a) = .ok (dw', idxe) →
    DictRel shape dw' (ellipsisMap amap idx0 (List.range' a k)) ∧
      idxe = idx0 + a + k ∧
      (∀ k', (dictFind? amap k').isSome →
        (dictFind? (ellipsisMap amap idx0 (List.range' a k)) k').isSome) := by
  intro k
  induction k with
  | zero =>
    intro a dw amap dw' idx0 idxe hr h
    simp only [List.range'] at h ⊢
    rw [ellipsisFill] at h
    injection h with h2
    injection h2 with ha hb
    refine ⟨?_, by omega, fun k' hk' => ?_⟩
    · rw [ellipsisMap]
      exact ha ▸ hr
    · rw [ellipsisMap]
      exact hk'
  | succ k ih =>
    intro a dw amap dw' idx0 idxe hr h
    simp only [List.range'] at h ⊢
    rw [ellipsisFill] at h
    cases hg : pyGet shape (idx0 + a) with
    | error e => rw [hg] at h; cases h
    | ok v =>
      rw [hg] at h
      dsimp only at h
      obtain ⟨hb, hv⟩ := pyGet_ok_inv shape (idx0 + a) v hg
      have hr2 := DictRel_set shape dw amap (ellipsisName a) (idx0 + a) hr hb
      rw [hv] at hr2
      have h' : ellipsisFill shape (List.range' (a + 1) k)
          (dictSet dw (ellipsisName a) v) (idx0 + (a + 1)) = .ok (dw', idxe) := h
      obtain ⟨hrel, hidx, hmono⟩ := ih (a + 1) (dictSet dw (ellipsisName a) v)
        (dictSet amap (ellipsisName a) (idx0 + a)) dw' idx0 idxe hr2 h'
      rw [ellipsisMap]
      exact ⟨hrel, by omega, fun k' hk' =>
        hmono k' (dictSet_isSome_mono amap (ellipsisName a) (idx0 + a) k' hk')⟩

theorem ellipsis_coupled_main (shape : List Nat) (n : Nat)
    (dw amap dw' : ShapeDict) (idx idxe : Nat) (hr : DictRel shape dw amap)
    (h : ellipsisFill shape (List.range n) dw idx = .ok (dw', idxe)) :
    DictRel shape dw' (ellipsisMap amap idx (List.range n)) ∧
      idxe = idx + n ∧
      (∀ k', (dictFind? amap k').isSome →
        (dictFind? (ellipsisMap amap idx (List.range n)) k').isSome) := by
  rw [List.range_eq_range'] at h ⊢
  have h' : ellipsisFill shape (List.range' 0 n) dw (idx + 0) = .ok (dw', idxe) := h
  obtain ⟨h1, h2, h3⟩ := ellipsis_coupled shape n 0 dw amap dw' idx idxe hr h'
  exact ⟨h1, by omega, h3⟩

/-- The two input walks stay coupled on split-free patterns: the walk
of `validate_shapes` and the axis-map walk of the plan builder insert
matching entries, the operation list is untouched, and every
non-ellipsis input token ends up in the axis map. -/
theorem inputWalk_coupled (shape : List Nat) (rank baseLen : Nat)
    (hints d : ShapeDict) :
    ∀ (toks : List String) (dw amap : ShapeDict)
      (ops0 : List (Nat × List Nat)) (idx : Nat)
      (dw1 : ShapeDict) (idx1 : Nat) (ops1 : List (Nat × List Nat))
      (amap1 : ShapeDict) (idx2 : Nat),
    (∀ ax ∈ toks, hasParens ax = false) →
    validateWalk shape rank baseLen hints toks dw idx = .ok (dw1, idx1) →
    amapWalk shape rank baseLen d toks ops0 amap idx = .ok (ops1, amap1, idx2) →
    DictRel shape dw amap →
    DictRel shape dw1 amap1 ∧ ops1 = ops0 ∧
      (∀ ax ∈ toks, ax ≠ "..." → (dictFind? amap1 ax).isSome) ∧
      (∀ k, (dictFind? amap k).isSome → (dictFind? amap1 k).isSome) := by
  intro toks
  induction toks with
  | nil =>
    intro dw amap ops0 idx dw1 idx1 ops1 amap1 idx2 _ h h2 hr
    rw [validateWalk] at h
    rw [amapWalk] at h2
    injection h with hh
    injection hh with ha hb
    injection h2 with hh2
    injection hh2 with hc hrest
    injection hrest with hd he2
    exact ⟨ha ▸ hd ▸ hr, hc.symm,
      fun ax hax => absurd hax (List.not_mem_nil ax),
      fun k hk => hd ▸ hk⟩
  | cons ax rest ih =>
    intro dw amap ops0 idx dw1 idx1 ops1 amap1 idx2 hnoc h h2 hr
    have hax : hasParens ax = false := hnoc ax (List.mem_cons_self ax rest)
    by_cases he : ax = "..."
    · rw [validateWalk, if_pos he] at h
      rw [amapWalk, if_pos he] at h2
      dsimp only at h2
      cases hf : ellipsisFill shape (List.range (rank - baseLen)) dw idx with
      | error e => rw [hf] at h; cases h
      | ok pr =>
        obtain ⟨dw2, idxM⟩ := pr
        rw [hf] at h
        dsimp only at h
        obtain ⟨hrel2, hidxM, hmono1⟩ := ellipsis_coupled_main shape
          (rank - baseLen) dw amap dw2 idx idxM hr hf
        subst hidxM
        obtain ⟨hrel, hops, hall, hmono⟩ := ih dw2 _ ops0 (idx + (rank - baseLen))
          dw1 idx1 ops1 amap1 idx2
          (fun a ha => hnoc a (List.mem_cons_of_mem ax ha)) h h2 hrel2
        refine ⟨hrel, hops, fun a ha hne => ?_, fun k hk => hmono k (hmono1 k hk)⟩
        rcases List.mem_cons.mp ha with rfl | hmem
        · exact absurd he hne
        · exact hall a hmem hne
    · rw [validateWalk, if_neg he] at h
      cases hg : pyGet shape idx with
      | error e => rw [hg] at h; cases h
      | ok v =>
        rw [hg] at h
        dsimp only at h
        rw [parse_axis_simple ax hax] at h
        simp only [ne_eq, not_true_eq_false,
          if_neg (by simp : ¬([] : List String) ≠ [])] at h
        rw [amapWalk, if_neg he, parse_axis_simple ax hax] at h2
        simp only [ne_eq, not_true_eq_false,
          if_neg (by simp : ¬([] : List String) ≠ [])] at h2
        have h2' : amapWalk shape rank baseLen d rest ops0
            (dictSet amap ax idx) (idx + 1) = .ok (ops1, amap1, idx2) := by
          by_cases h1 : ax = "1"
          · rw [if_pos h1] at h2
            rw [hg] at h2
            exact h2
          · rw [if_neg h1] at h2
            exact h2
        obtain ⟨hb, hv⟩ := pyGet_ok_inv shape idx v hg
        have hr2 := DictRel_set shape dw amap ax idx hr hb
        rw [hv] at hr2
        obtain ⟨hrel, hops, hall, hmono⟩ := ih (dictSet dw ax v)
          (dictSet amap ax idx) ops0 (idx + 1) dw1 idx1 ops1 amap1 idx2
          (fun a ha => hnoc a (List.mem_cons_of_mem ax ha)) h h2' hr2
        refine ⟨hrel, hops, fun a ha hne => ?_,
          fun k hk => hmono k (dictSet_isSome_mono amap ax idx k hk)⟩
        rcases List.mem_cons.mp ha with rfl | hmem
        · refine hmono a ?_
          rw [dictFind?_dictSet, if_pos rfl]
          rfl
        · exact hall a hmem hne

theorem mapM_nil_except {α β : Type} (f : α → Except ZErr β) :
    ([] : List α).mapM f = .ok [] := by
  rw [List.mapM_nil]
  rfl

theorem mapM_cons_except {α β : Type} (f : α → Except ZErr β) (a : α)
    (l : List α) :
    (a :: l).mapM f = match f a with
      | .error err => .error err
      | .ok b => match l.mapM f with
        | .error err => .error err
        | .ok bs => .ok (b :: bs) := by
  rw [List.mapM_cons]
  cases f a with
  | error err => rfl
  | ok b =>
    cases l.mapM f with
    | error err => rfl
    | ok bs => rfl

/-- The ellipsis arms of the output walk and of the broadcast-shape
walk produce the same sizes, and each produced position carries the
produced size. -/
theorem outEllipsis_coupled (dm amap : ShapeDict) (shape : List Nat)
    (hrel : ∀ k i, dictFind? amap k = some i →
      i < shape.length ∧ dictFind? dm k = some (shape.getD i 0)) :
    ∀ (is : List Nat) (fs0 perm0 fs1 perm1 vs : List Nat),
    outEllipsis dm amap is fs0 perm0 = .ok (fs1, perm1) →
    is.mapM (fun i => dictGet dm (ellipsisName i)) = .ok vs →
    ∃ F P, fs1 = fs0 ++ F ∧ perm1 = perm0 ++ P ∧ vs = F ∧
      List.Forall₂ (fun b q => b = shape.getD q 0) F P := by
  intro is
  induction is with
  | nil =>
    intro fs0 perm0 fs1 perm1 vs h hm
    rw [outEllipsis] at h
    rw [mapM_nil_except] at hm
    injection h with hh
    injection hh with h1 h2
    injection hm with h3
    exact ⟨[], [], by rw [← h1]; simp, by rw [← h2]; simp, h3.symm,
      List.Forall₂.nil⟩
  | cons i rest ih =>
    intro fs0 perm0 fs1 perm1 vs h hm
    rw [outEllipsis] at h
    rw [mapM_cons_except] at hm
    cases hgd : dictGet dm (ellipsisName i) with
    | error e2 => rw [hgd] at h; cases h
    | ok v =>
      rw [hgd] at h hm
      dsimp only at h hm
      cases hga : dictGet amap (ellipsisName i) with
      | error e2 => rw [hga] at h; cases h
      | ok pos =>
        rw [hga] at h
        dsimp only at h
        cases hmr : rest.mapM (fun j => dictGet dm (ellipsisName j)) with
        | error e2 => rw [hmr] at hm; cases hm
        | ok vs2 =>
          rw [hmr] at hm
          dsimp only at hm
          injection hm with hvs
          obtain ⟨F2, P2, hf2, hp2, hv2, hF2⟩ :=
            ih (fs0 ++ [v]) (perm0 ++ [pos]) fs1 perm1 vs2 h hmr
          have hfind := dictGet_ok_inv amap (ellipsisName i) pos hga
          obtain ⟨hlt, hdmv⟩ := hrel (ellipsisName i) pos hfind
          have hveq : v = shape.getD pos 0 := by
            have h3 := dictGet_ok_inv dm (ellipsisName i) v hgd
            rw [hdmv] at h3
            exact (Option.some.inj h3).symm
          refine ⟨v :: F2, pos :: P2, ?_, ?_, ?_,
            List.Forall₂.cons hveq hF2⟩
          · rw [hf2, List.append_assoc, List.singleton_append]
          · rw [hp2, List.append_assoc, List.singleton_append]
          · rw [← hvs, hv2]

/-- On merge-free output token lists, the output walk and the
broadcast-shape walk append entrywise-coupled blocks: every final-shape
entry either reads a dimension at its permutation entry, or is a hint
value for an axis absent from the axis map, paired with the head
singleton position. -/
theorem outWalk_bshape_coupled (dm amap hints : ShapeDict) (ia : List String)
    (shape shape0 : List Nat) (rank baseLen : Nat)
    (hrel : ∀ k i, dictFind? amap k = some i →
      i < shape.length ∧ dictFind? dm k = some (shape.getD i 0))
    (hnone : ∀ k, dictFind? amap k = none →
      dictFind? dm k = dictFind? hints k) :
    ∀ (oa : List String) (fs0 perm0 acc0 fs perm bsh : List Nat),
    (∀ ax ∈ oa, hasParens ax = false) →
    outWalk dm amap hints ia shape0 rank baseLen oa fs0 perm0 = .ok (fs, perm) →
    bshapeWalk dm hints rank baseLen oa acc0 = .ok bsh →
    ∃ F P, fs = fs0 ++ F ∧ perm = perm0 ++ P ∧ bsh = acc0 ++ F ∧
      List.Forall₂ (fun b q =>
        b = shape.getD q 0 ∨
        ((∃ tl, singletonPositions ia shape0 = .ok (q :: tl)) ∧
          ∃ ax2, ax2 ∈ oa ∧ ax2 ≠ "..." ∧ dictFind? amap ax2 = none ∧
            dictFind? hints ax2 = some b)) F P := by
  intro oa
  induction oa with
  | nil =>
    intro fs0 perm0 acc0 fs perm bsh _ h hb
    rw [outWalk] at h
    rw [bshapeWalk] at hb
    injection h with hh
    injection hh with h1 h2
    injection hb with h3
    exact ⟨[], [], by rw [← h1]; simp, by rw [← h2]; simp,
      by rw [← h3]; simp, List.Forall₂.nil⟩
  | cons ax rest ih =>
    intro fs0 perm0 acc0 fs perm bsh hnoc h hb
    have hax : hasParens ax = false := hnoc ax (List.mem_cons_self ax rest)
    have hpa : parse_axis ax = (ax, []) := parse_axis_simple ax hax
    have hweak : ∀ (b q : Nat),
        (b = shape.getD q 0 ∨
          ((∃ tl, singletonPositions ia shape0 = .ok (q :: tl)) ∧
            ∃ ax2, ax2 ∈ rest ∧ ax2 ≠ "..." ∧ dictFind? amap ax2 = none ∧
              dictFind? hints ax2 = some b)) →
        (b = shape.getD q 0 ∨
          ((∃ tl, singletonPositions ia shape0 = .ok (q :: tl)) ∧
            ∃ ax2, ax2 ∈ ax :: rest ∧ ax2 ≠ "..." ∧
              dictFind? amap ax2 = none ∧ dictFind? hints ax2 = some b)) := by
      intro b q hbq
      refine hbq.imp (fun x => x) (fun hx => ⟨hx.1, ?_⟩)
      obtain ⟨ax2, hm2, h3, h4, h5⟩ := hx.2
      exact ⟨ax2, List.mem_cons_of_mem ax hm2, h3, h4, h5⟩
    rw [outWalk] at h
    rw [hpa] at h
    dsimp only at h
    by_cases he : ax = "..."
    · rw [if_pos he] at h
      rw [bshapeWalk, if_pos he] at hb
      cases hoe : outEllipsis dm amap (List.range (rank - baseLen)) fs0 perm0 with
      | error e2 => rw [hoe] at h; cases h
      | ok pr =>
        obtain ⟨fs2, perm2⟩ := pr
        rw [hoe] at h
        dsimp only at h
        cases hmm2 : (List.range (rank - baseLen)).mapM
            (fun i => dictGet dm (ellipsisName i)) with
        | error e2 => rw [hmm2] at hb; cases hb
        | ok vs =>
          rw [hmm2] at hb
          dsimp only at hb
          obtain ⟨F1, P1, hf1, hp1, hv1, hF1⟩ := outEllipsis_coupled dm amap shape
            hrel (List.range (rank - baseLen)) fs0 perm0 fs2 perm2 vs hoe hmm2
          obtain ⟨F2, P2, hf2, hp2, hb2, hF2⟩ := ih fs2 perm2 (acc0 ++ vs)
            fs perm bsh (fun a ha => hnoc a (List.mem_cons_of_mem ax ha)) h hb
          refine ⟨F1 ++ F2, P1 ++ P2, ?_, ?_, ?_, ?_⟩
          · rw [hf2, hf1, List.append_assoc]
          · rw [hp2, hp1, List.append_assoc]
          · rw [hb2, hv1, List.append_assoc]
          · exact List.rel_append
              (List.Forall₂.imp (fun b q hbq => Or.inl hbq) hF1)
              (List.Forall₂.imp hweak hF2)
    · rw [if_neg he] at h
      simp only [ne_eq, not_true_eq_false,
        if_neg (by simp : ¬([] : List String) ≠ [])] at h
      rw [bshapeWalk, if_neg he] at hb
      rw [hpa] at hb
      simp only [ne_eq, not_true_eq_false,
        if_neg (by simp : ¬([] : List String) ≠ [])] at hb
      cases hbc : dictContains hints ax && !(dictContains amap ax) with
      | true =>
        rw [hbc] at h
        rw [if_pos rfl] at h
        cases hsp : singletonPositions ia shape0 with
        | error e2 => rw [hsp] at h; cases h
        | ok l =>
          cases l with
          | nil => rw [hsp] at h; cases h
          | cons p tl =>
            rw [hsp] at h
            dsimp only at h
            rw [← hsp]
            have hbc' := hbc
            rw [Bool.and_eq_true] at hbc'
            obtain ⟨hhints, hnamap⟩ := hbc'
            have hamap_none : dictFind? amap ax = none := by
              rw [Bool.not_eq_true'] at hnamap
              rw [dictContains] at hnamap
              cases hfa : dictFind? amap ax with
              | none => rfl
              | some w => rw [hfa] at hnamap; cases hnamap
            obtain ⟨b, hbval⟩ : ∃ b, dictFind? hints ax = some b := by
              rw [dictContains] at hhints
              exact Option.isSome_iff_exists.mp hhints
            have hdmax : dictFind? dm ax = some b := by
              rw [hnone ax hamap_none, hbval]
            rw [hbval] at h
            have hsome0 : (some b).getD 0 = b := rfl
            rw [hsome0] at h
            rw [hdmax, hbval] at hb
            have hsome1 : (some b).getD ((some b).getD 1) = b := rfl
            rw [show ((some b).getD ((some b).getD 1) : Nat) = b from rfl] at hb
            obtain ⟨F2, P2, hf2, hp2, hb2, hF2⟩ := ih (fs0 ++ [b]) (perm0 ++ [p])
              (acc0 ++ [b]) fs perm bsh
              (fun a ha => hnoc a (List.mem_cons_of_mem ax ha)) h hb
            refine ⟨b :: F2, p :: P2, ?_, ?_, ?_, ?_⟩
            · rw [hf2, List.append_assoc, List.singleton_append]
            · rw [hp2, List.append_assoc, List.singleton_append]
            · rw [hb2, List.append_assoc, List.singleton_append]
            · exact List.Forall₂.cons
                (Or.inr ⟨⟨tl, hsp⟩, ax, List.mem_cons_self ax rest, he,
                  hamap_none, hbval⟩)
                (List.Forall₂.imp hweak hF2)
      | false =>
        rw [hbc] at h
        rw [if_neg Bool.false_ne_true] at h
        cases hgd : dictGet dm ax with
        | error e2 => rw [hgd] at h; cases h
        | ok v =>
          rw [hgd] at h
          dsimp only at h
          cases hga : dictGet amap ax with
          | error e2 => rw [hga] at h; cases h
          | ok pos =>
            rw [hga] at h
            dsimp only at h
            have hfa := dictGet_ok_inv amap ax pos hga
            obtain ⟨hlt, hdmv⟩ := hrel ax pos hfa
            have hveq : v = shape.getD pos 0 := by
              have h3 := dictGet_ok_inv dm ax v hgd
              rw [hdmv] at h3
              exact (Option.some.inj h3).symm
            have h4 := dictGet_ok_inv dm ax v hgd
            rw [h4] at hb
            rw [show ((some v).getD ((dictFind? hints ax).getD 1) : Nat) = v
              from rfl] at hb
            obtain ⟨F2, P2, hf2, hp2, hb2, hF2⟩ := ih (fs0 ++ [v])
              (perm0 ++ [pos]) (acc0 ++ [v]) fs perm bsh
              (fun a ha => hnoc a (List.mem_cons_of_mem ax ha)) h hb
            refine ⟨v :: F2, pos :: P2, ?_, ?_, ?_,
              List.Forall₂.cons (Or.inl hveq) (List.Forall₂.imp hweak hF2)⟩
            · rw [hf2, List.append_assoc, List.singleton_append]
            · rw [hp2, List.append_assoc, List.singleton_append]
            · rw [hb2, List.append_assoc, List.singleton_append]

/-- A coupled block whose permutation part avoids the head singleton
position is entrywise normal, so its sizes multiply to the gathered
dimension sizes. -/
theorem forall₂_out_tail (shape : List Nat) (res : Except ZErr (List Nat))
    (New : Nat → Nat → Prop) (q : Nat) (tl : List Nat)
    (htl : res = .ok (q :: tl)) (F P : List Nat)
    (hF : List.Forall₂ (fun b p2 => b = shape.getD p2 0 ∨
      ((∃ tl2, res = .ok (p2 :: tl2)) ∧ New b p2)) F P) :
    q ∉ P → F.prod = (P.map (fun p2 => shape.getD p2 0)).prod := by
  induction hF with
  | nil => intro _; rfl
  | @cons b p2 F2 P2 hbp htail ih =>
    intro hq
    rcases hbp with hn | ⟨⟨tl2, htl2⟩, _⟩
    · rw [List.map_cons, List.prod_cons, List.prod_cons, hn,
        ih (fun hh => hq (List.mem_cons_of_mem p2 hh))]
    · rw [htl] at htl2
      injection htl2 with h3
      injection h3 with h4 h5
      exact absurd (by rw [h4]; exact List.mem_cons_self p2 P2) hq

/-- Product of a coupled block with duplicate-free permutation part:
either every entry is normal and the product is the gathered product,
or a single new axis multiplies its hint size into the gathered
product (its position, the head singleton position, has size one). -/
theorem forall₂_out_prod (shape : List Nat) (res : Except ZErr (List Nat))
    (New : Nat → Nat → Prop)
    (hres : ∀ q tl2, res = .ok (q :: tl2) → shape.getD q 0 = 1)
    (F P : List Nat)
    (hF : List.Forall₂ (fun b q => b = shape.getD q 0 ∨
      ((∃ tl2, res = .ok (q :: tl2)) ∧ New b q)) F P) :
    P.Nodup →
    F.prod = (P.map (fun q => shape.getD q 0)).prod ∨
      ∃ b q, New b q ∧
        F.prod = (P.map (fun q => shape.getD q 0)).prod * b := by
  induction hF with
  | nil => intro _; exact Or.inl rfl
  | @cons b q F2 P2 hbq htail ih =>
    intro hnd
    have hqn : q ∉ P2 := (List.nodup_cons.mp hnd).1
    have hnd2 : P2.Nodup := (List.nodup_cons.mp hnd).2
    rcases hbq with hn | ⟨⟨tl2, htl2⟩, hnew⟩
    · rcases ih hnd2 with hleft | ⟨b2, q2, hnew2, heq⟩
      · left
        rw [List.map_cons, List.prod_cons, List.prod_cons, hn, hleft]
      · right
        refine ⟨b2, q2, hnew2, ?_⟩
        rw [List.map_cons, List.prod_cons, List.prod_cons, hn, heq]
        ring
    · right
      refine ⟨b, q, hnew, ?_⟩
      have htail_prod : F2.prod = (P2.map (fun p2 => shape.getD p2 0)).prod :=
        forall₂_out_tail shape res New q tl2 htl2 F2 P2 htail hqn
      rw [List.map_cons, List.prod_cons, List.prod_cons, htail_prod,
        hres q tl2 htl2, one_mul]
      exact Nat.mul_comm b _

/-- Inversion of a successful compilation: the stage equations and the
produced plan record. -/
theorem compile_ok_inv (t : Tensor) (p : String) (hints : ShapeDict)
    (c : CompileOut) (h : compile t p hints = .ok c) :
    ∃ ia oa dw idxv d ops amap idxa fs perm,
      parser p = .ok (ia, oa) ∧
      validateWalk t.shape t.shape.length
        (ia.filter (fun ax => ax != "...")).length hints ia [] 0 =
        .ok (dw, idxv) ∧
      d = hints.foldl
        (fun dd p2 => if dictContains dd p2.1 then dd else dd ++ [p2]) dw ∧
      outputCheck oa d = .ok () ∧
      amapWalk t.shape t.shape.length
        (ia.filter (fun ax => ax != "...")).length d ia [] [] 0 =
        .ok (ops, amap, idxa) ∧
      outWalk d amap hints ia t.shape t.shape.length
        (ia.filter (fun ax => ax != "...")).length oa [] [] = .ok (fs, perm) ∧
      c = ⟨ops, perm, fs, ia.any hasParens, oa.any hasParens, ia, oa, d, hints,
        t.shape.length, (ia.filter (fun ax => ax != "...")).length⟩ := by
  simp only [compile] at h
  cases hp : parser p with
  | error e => rw [hp] at h; cases h
  | ok pr =>
    obtain ⟨ia, oa⟩ := pr
    rw [hp] at h
    dsimp only at h
    cases hrk : rankCheck (ia.any hasParens) (oa.any hasParens)
        (ia.contains "..." || oa.contains "...")
        (ia.filter (fun ax => ax != "...")).length t.shape.length with
    | error e => rw [hrk] at h; cases h
    | ok u =>
      rw [hrk] at h
      dsimp only at h
      cases hval : validate_shapes t.shape ia oa hints with
      | error e => rw [hval] at h; cases h
      | ok d =>
        rw [hval] at h
        dsimp only at h
        cases hmg : mergePhase (oa.any hasParens) oa d with
        | error e => rw [hmg] at h; cases h
        | ok u2 =>
          rw [hmg] at h
          dsimp only at h
          cases hoc : outputCheck oa d with
          | error e => rw [hoc] at h; cases h
          | ok u3 =>
            rw [hoc] at h
            dsimp only at h
            cases ham : amapWalk t.shape t.shape.length
                (ia.filter (fun ax => ax != "...")).length d ia [] [] 0 with
            | error e => rw [ham] at h; cases h
            | ok tr =>
              obtain ⟨ops, pr2⟩ := tr
              obtain ⟨amap, idxa⟩ := pr2
              rw [ham] at h
              dsimp only at h
              cases how : outWalk d amap hints ia t.shape t.shape.length
                  (ia.filter (fun ax => ax != "...")).length oa [] [] with
              | error e => rw [how] at h; cases h
              | ok pr3 =>
                obtain ⟨fs, perm⟩ := pr3
                rw [how] at h
                dsimp only at h
                injection h with h2
                rw [validate_shapes] at hval
                cases hvw : validateWalk t.shape t.shape.length
                    (ia.filter (fun ax => ax != "...")).length hints ia [] 0 with
                | error e => rw [hvw] at hval; cases hval
                | ok pr4 =>
                  obtain ⟨dw, idxv⟩ := pr4
                  rw [hvw] at hval
                  dsimp only at hval
                  injection hval with h3
                  exact ⟨ia, oa, dw, idxv, d, ops, amap, idxa, fs, perm,
                    rfl, hvw, h3.symm, hoc, ham, how, h2.symm⟩

/-- The broadcast branch of the execution phase: element-count
accounting when a split-free, merge-free plan reaches
`np.broadcast_to`. -/
theorem broadcast_case_prod (t out r2 : Tensor) (hints d dw amap : ShapeDict)
    (ia oa : List String) (baseLen idxv idxa : Nat)
    (ops : List (Nat × List Nat)) (perm fs bsh : List Nat)
    (r1 : Tensor) (cur : List Nat)
    (hnoc_ia : ∀ ax ∈ ia, hasParens ax = false)
    (hnoc_oa : ∀ ax ∈ oa, hasParens ax = false)
    (hvw : validateWalk t.shape t.shape.length baseLen hints ia [] 0 =
      .ok (dw, idxv))
    (hd : d = hints.foldl
      (fun dd p2 => if dictContains dd p2.1 then dd else dd ++ [p2]) dw)
    (ham : amapWalk t.shape t.shape.length baseLen d ia [] [] 0 =
      .ok (ops, amap, idxa))
    (hao : applyOps t t.shape ops = .ok (r1, cur))
    (hstep : (perm ≠ [] ∧ np_transpose r1 perm = .ok r2) ∨
      (perm = [] ∧ r2 = r1))
    (how : outWalk d amap hints ia t.shape t.shape.length baseLen oa [] [] =
      .ok (fs, perm))
    (hfs : fs ≠ [])
    (hbw : bshapeWalk d hints t.shape.length baseLen oa [] = .ok bsh)
    (hbr : np_broadcast_to r2 bsh = .ok out) :
    out.shape.prod = t.shape.prod ∨
      ∃ ax b, ax ∈ oa ∧ ax ∉ ia ∧ dictFind? hints ax = some b ∧
        out.shape.prod = t.shape.prod * b := by
  obtain ⟨⟨hdom, hval2⟩, hops, hall, _⟩ := inputWalk_coupled t.shape
    t.shape.length baseLen hints d ia [] [] [] 0 dw idxv ops amap idxa
    hnoc_ia hvw ham (DictRel_nil t.shape)
  subst hops
  rw [applyOps] at hao
  injection hao with h2
  injection h2 with hr1 hcur
  have hrel : ∀ k i, dictFind? amap k = some i →
      i < t.shape.length ∧ dictFind? d k = some (t.shape.getD i 0) := by
    intro k i hk
    obtain ⟨hlt, hdw⟩ := hval2 k i hk
    refine ⟨hlt, ?_⟩
    rw [hd, hintMerge_find hints dw k, hdw]
    rfl
  have hnone : ∀ k, dictFind? amap k = none →
      dictFind? d k = dictFind? hints k := by
    intro k hk
    have h1 : ¬((dictFind? dw k).isSome = true) := by
      rw [hdom k, hk]
      simp
    have h3 : dictFind? dw k = none := by
      cases hdd : dictFind? dw k with
      | none => rfl
      | some w => rw [hdd] at h1; exact absurd rfl h1
    rw [hd, hintMerge_find hints dw k, h3]
    rfl
  obtain ⟨F, P, hfF, hpP, hbF, hFall⟩ := outWalk_bshape_coupled d amap hints ia
    t.shape t.shape t.shape.length baseLen hrel hnone oa [] [] [] fs perm bsh
    hnoc_oa how hbw
  rw [List.nil_append] at hfF hpP hbF
  subst hfF
  subst hpP
  have hout : out.shape = fs := by
    rw [np_broadcast_shape r2 out bsh hbr, hbF]
  rcases hstep with ⟨hpe, htr⟩ | ⟨hpe, hr2eq⟩
  · obtain ⟨hlen, hnd, hbd, hsh2, _⟩ := np_transpose_ok r1 r2 perm htr
    rw [← hr1] at hlen hbd
    have hres1 : ∀ q tl2, singletonPositions ia t.shape = .ok (q :: tl2) →
        t.shape.getD q 0 = 1 := by
      intro q tl2 hq
      rw [singletonPositions] at hq
      exact (singletonPosAux_mem t.shape ia 0 [] (q :: tl2) hq
        (fun q2 hq2 => absurd hq2 (List.not_mem_nil q2)) q
        (List.mem_cons_self q tl2)).2
    have hmap : (perm.map (fun q => t.shape.getD q 0)).prod = t.shape.prod :=
      permApply_prod perm t.shape hlen hnd hbd
    rcases forall₂_out_prod t.shape (singletonPositions ia t.shape)
      (fun b q => ∃ ax2, ax2 ∈ oa ∧ ax2 ≠ "..." ∧ dictFind? amap ax2 = none ∧
        dictFind? hints ax2 = some b) hres1 fs perm hFall hnd with
      hleft | ⟨b, q, hnew, heq⟩
    · left
      rw [hout, hleft, hmap]
    · obtain ⟨ax2, hmem, hne2, hanone, hhv⟩ := hnew
      right
      refine ⟨ax2, b, hmem, ?_, hhv, ?_⟩
      · intro hin
        have hsome := hall ax2 hin hne2
        rw [hanone] at hsome
        simp at hsome
      · rw [hout, heq, hmap]
  · have hP : perm = [] := hpe
    have hlen2 := List.Forall₂.length_eq hFall
    rw [hP] at hlen2
    have hFnil : fs = [] := List.length_eq_zero.mp (by simpa using hlen2)
    exact absurd hFnil hfs

/-- C4: element-count invariance of every successful `rearrange` call:
the output element count equals the input element count, except that a
broadcast introducing a strictly new output axis (a token absent from
the input side, sized by a hint) multiplies the count by that axis's
size. -/
theorem c4_element_count (t : Tensor) (p : String) (hints : ShapeDict)
    (ia oa : List String) (out : Tensor)
    (hp : parser p = .ok (ia, oa))
    (hok : rearrange t p hints = .ok out) :
    out.shape.prod = t.shape.prod ∨
    ∃ ax b, ax ∈ oa ∧ ax ∉ ia ∧ dictFind? hints ax = some b ∧
      out.shape.prod = t.shape.prod * b := by
  simp only [rearrange] at hok
  cases hcomp : compile t p hints with
  | error e => rw [hcomp] at hok; cases hok
  | ok c =>
    rw [hcomp] at hok
    dsimp only at hok
    obtain ⟨ia2, oa2, dw, idxv, d, ops, amap, idxa, fs, perm, hp2, hvw, hd,
      hoc, ham, how, hc⟩ := compile_ok_inv t p hints c hcomp
    rw [hp] at hp2
    injection hp2 with hp3
    injection hp3 with hia hoa
    subst hia
    subst hoa
    subst hc
    simp only [execPlan] at hok
    cases hao : applyOps t t.shape ops with
    | error e => rw [hao] at hok; cases hok
    | ok pr =>
      obtain ⟨r1, cur⟩ := pr
      rw [hao] at hok
      dsimp only at hok
      obtain ⟨hsha, hprod1⟩ := applyOps_ok ops t t.shape r1 cur rfl hao
      by_cases hpe : perm ≠ []
      · rw [if_pos hpe] at hok
        cases htr : np_transpose r1 perm with
        | error e => rw [htr] at hok; cases hok
        | ok r2 =>
          rw [htr] at hok
          dsimp only at hok
          have hprod2 : r2.shape.prod = t.shape.prod := by
            rw [np_transpose_prod r1 r2 perm htr, hprod1]
          by_cases hfs : fs ≠ []
          · rw [if_pos hfs] at hok
            cases hcond : cur.any (fun s => s == 1) && !(ia.any hasParens) &&
                !(oa.any hasParens) with
            | false =>
              rw [hcond] at hok
              rw [if_neg Bool.false_ne_true] at hok
              obtain ⟨hos, _, hfp⟩ := np_reshape_ok r2 out fs hok
              left
              rw [hos, hfp, hprod2]
            | true =>
              rw [hcond] at hok
              rw [if_pos rfl] at hok
              cases hbw : bshapeWalk d hints t.shape.length
                  (ia.filter (fun ax => ax != "...")).length oa [] with
              | error e => rw [hbw] at hok; cases hok
              | ok bsh =>
                rw [hbw] at hok
                rw [Bool.and_eq_true, Bool.and_eq_true] at hcond
                obtain ⟨⟨hany, hnos⟩, hnom⟩ := hcond
                have hnoc_ia : ∀ ax ∈ ia, hasParens ax = false := by
                  intro ax hax
                  cases hhh : hasParens ax with
                  | false => rfl
                  | true =>
                    rw [Bool.not_eq_true'] at hnos
                    rw [List.any_eq_true.mpr ⟨ax, hax, hhh⟩] at hnos
                    cases hnos
                have hnoc_oa : ∀ ax ∈ oa, hasParens ax = false := by
                  intro ax hax
                  cases hhh : hasParens ax with
                  | false => rfl
                  | true =>
                    rw [Bool.not_eq_true'] at hnom
                    rw [List.any_eq_true.mpr ⟨ax, hax, hhh⟩] at hnom
                    cases hnom
                exact broadcast_case_prod t out r2 hints d dw amap ia oa
                  (ia.filter (fun ax => ax != "...")).length idxv idxa ops
                  perm fs bsh r1 cur hnoc_ia hnoc_oa hvw hd ham hao
                  (Or.inl ⟨hpe, htr⟩) how hfs hbw hok
          · rw [if_neg hfs] at hok
            injection hok with h5
            left
            rw [← h5, hprod2]
      · rw [if_neg hpe] at hok
        dsimp only at hok
        by_cases hfs : fs ≠ []
        · rw [if_pos hfs] at hok
          cases hcond : cur.any (fun s => s == 1) && !(ia.any hasParens) &&
              !(oa.any hasParens) with
          | false =>
            rw [hcond] at hok
            rw [if_neg Bool.false_ne_true] at hok
            obtain ⟨hos, _, hfp⟩ := np_reshape_ok r1 out fs hok
            left
            rw [hos, hfp, hprod1]
          | true =>
            rw [hcond] at hok
            rw [if_pos rfl] at hok
            cases hbw : bshapeWalk d hints t.shape.length
                (ia.filter (fun ax => ax != "...")).length oa [] with
            | error e => rw [hbw] at hok; cases hok
            | ok bsh =>
              rw [hbw] at hok
              rw [Bool.and_eq_true, Bool.and_eq_true] at hcond
              obtain ⟨⟨hany, hnos⟩, hnom⟩ := hcond
              have hnoc_ia : ∀ ax ∈ ia, hasParens ax = false := by
                intro ax hax
                cases hhh : hasParens ax with
                | false => rfl
                | true =>
                  rw [Bool.not_eq_true'] at hnos
                  rw [List.any_eq_true.mpr ⟨ax, hax, hhh⟩] at hnos
                  cases hnos
              have hnoc_oa : ∀ ax ∈ oa, hasParens ax = false := by
                intro ax hax
                cases hhh : hasParens ax with
                | false => rfl
                | true =>
                  rw [Bool.not_eq_true'] at hnom
                  rw [List.any_eq_true.mpr ⟨ax, hax, hhh⟩] at hnom
                  cases hnom
              exact broadcast_case_prod t out r1 hints d dw amap ia oa
                (ia.filter (fun ax => ax != "...")).length idxv idxa ops
                perm fs bsh r1 cur hnoc_ia hnoc_oa hvw hd ham hao
                (Or.inr ⟨not_ne_iff.mp hpe, rfl⟩) how hfs hbw hok
        · rw [if_neg hfs] at hok
          injection hok with h5
          left
          rw [← h5, hprod1]

theorem c4_witness :
    (Tensor.mk [3, 4, 5]
        ((List.range 60).map (fun k => Int.ofNat (k / 20 * 5 + k % 5)))).shape.prod =
      (rangeTensor [3, 1, 5]).shape.prod ∨
    ∃ ax b, ax ∈ ["a", "b", "c"] ∧ ax ∉ ["a", "1", "c"] ∧
      dictFind? [("b", 4)] ax = some b ∧
      (Tensor.mk [3, 4, 5]
          ((List.range 60).map (fun k => Int.ofNat (k / 20 * 5 + k % 5)))).shape.prod =
        (rangeTensor [3, 1, 5]).shape.prod * b :=
  c4_element_count (rangeTensor [3, 1, 5]) "a 1 c -> a b c" [("b", 4)]
    ["a", "1", "c"] ["a", "b", "c"]
    ⟨[3, 4, 5], (List.range 60).map (fun k => Int.ofNat (k / 20 * 5 + k % 5))⟩
    rfl rfl

end Zinops
